import Mathlib

/-!
Verification of the dev-mode live-update engine (module graph, route
inference, HMR client, performance monitor, rebuild orchestration).

The TypeScript sources are shallowly embedded:

* a JS `Map<string, V>` becomes an insertion-ordered association list
  (`StrMap V`); `Map.get`/`Map.set`/`Map.delete` become `mapGet`, `mapSet`
  (replace in place, else append, like JS `Map.set`) and `mapDelete`
  (JS keys are unique so removing every matching entry coincides with
  removing the single one);
* a JS `Set<string>` becomes an insertion-ordered duplicate-free list
  (`StrSet`); `Set.add` / `Set.delete` become `setAdd` / `List.erase`;
* the recursive DFS of `getAffectedModules` is given explicit fuel
  (one more than the number of names in the map, which we prove is enough);
* strings are `String` / `List Char`; regex tests and replacements are
  hand-compiled to scanning functions that implement the exact
  leftmost-match / greedy semantics of the concrete patterns.
-/

/-- JS `Set<string>` as an insertion-ordered duplicate-free list. -/
abbrev StrSet := List String

/-- JS `Map<string, V>` as an insertion-ordered association list. -/
abbrev StrMap (α : Type) := List (String × α)

/-- JS `Map.get`: first (unique) matching entry. -/
def mapGet {α : Type} : StrMap α → String → Option α
  | [], _ => none
  | (k, v) :: rest, x => if k = x then some v else mapGet rest x

/-- JS `Map.set`: update the existing entry in place, else append. -/
def mapSet {α : Type} : StrMap α → String → α → StrMap α
  | [], x, v => [(x, v)]
  | (k, w) :: rest, x, v =>
    if k = x then (x, v) :: rest else (k, w) :: mapSet rest x v

/-- JS `Map.delete`: remove the (unique) entry with this key. -/
def mapDelete {α : Type} (m : StrMap α) (x : String) : StrMap α :=
  m.filter (fun p => !(p.1 = x : Bool))

/-- JS `Set.add`: append if not already present. -/
def setAdd (s : StrSet) (x : String) : StrSet :=
  if x ∈ s then s else s ++ [x]

/-- The four maps of the module dependency graph (`module-graph.ts`). -/
structure ModuleGraph where
  dependencies : StrMap StrSet
  dependents : StrMap StrSet
  moduleToFile : StrMap String
  fileToModule : StrMap String

/-- The freshly constructed `ModuleGraphManager` state. -/
def initialGraph : ModuleGraph :=
  { dependencies := [], dependents := [], moduleToFile := [], fileToModule := [] }

/-- `ModuleGraphManager.addModule`: record the id/path bijection, add each
listed dependency to the module's forward set and mirror it into the
dependency's dependents set. -/
def addModule (g : ModuleGraph) (moduleId filePath : String)
    (dependencies : List String) : ModuleGraph :=
  let mtf := mapSet g.moduleToFile moduleId filePath
  let ftm := mapSet g.fileToModule filePath moduleId
  let start : StrSet × StrMap StrSet :=
    ((mapGet g.dependencies moduleId).getD [], g.dependents)
  let res := dependencies.foldl
    (fun acc dep =>
      (setAdd acc.1 dep,
       mapSet acc.2 dep (setAdd ((mapGet acc.2 dep).getD []) moduleId)))
    start
  { dependencies := mapSet g.dependencies moduleId res.1
    dependents := res.2
    moduleToFile := mtf
    fileToModule := ftm }

/-- One iteration of the `removeModule` loops: delete `m` from the set stored
at key `k`, pruning the entry when the set becomes empty. -/
def rmStep (m : String) (dm : StrMap StrSet) (k : String) : StrMap StrSet :=
  match mapGet dm k with
  | none => dm
  | some s =>
    let s2 := s.erase m
    if s2 = [] then mapDelete dm k else mapSet dm k s2

/-- First half of `removeModule`: for each forward dependency of `m`, delete
`m` from that dependency's dependents set (pruning empties), then drop `m`'s
own forward entry. -/
def rmPhase1 (g : ModuleGraph) (m : String) : StrMap StrSet × StrMap StrSet :=
  match mapGet g.dependencies m with
  | some deps => (mapDelete g.dependencies m, deps.foldl (rmStep m) g.dependents)
  | none => (g.dependencies, g.dependents)

/-- Second half of `removeModule`, running on the state left by `rmPhase1`:
for each remaining dependent of `m`, delete `m` from that dependent's forward
set (pruning empties), then drop `m`'s dependents entry. -/
def rmPhase2 (m : String) (p : StrMap StrSet × StrMap StrSet) :
    StrMap StrSet × StrMap StrSet :=
  match mapGet p.2 m with
  | some depts => (depts.foldl (rmStep m) p.1, mapDelete p.2 m)
  | none => p

/-- `ModuleGraphManager.removeModule`.  The `if (filePath)` guard is a JS
truthiness test: the `fileToModule.delete` runs only when the recorded path is
a non-empty string, so an empty-string path is left in place. -/
def removeModule (g : ModuleGraph) (m : String) : ModuleGraph :=
  let ftm := match mapGet g.moduleToFile m with
    | some fp => if fp = "" then g.fileToModule else mapDelete g.fileToModule fp
    | none => g.fileToModule
  let mtf := mapDelete g.moduleToFile m
  let p := rmPhase2 m (rmPhase1 g m)
  { dependencies := p.1, dependents := p.2, moduleToFile := mtf, fileToModule := ftm }

/-- `ModuleGraphManager.getModuleId`. -/
def getModuleId (g : ModuleGraph) (filePath : String) : Option String :=
  mapGet g.fileToModule filePath

/-- Reverse-dependency successors of a node (absent entry counts as empty). -/
def succsOf (dm : StrMap StrSet) (id : String) : StrSet :=
  (mapGet dm id).getD []

/-- Every name (key or set member) occurring in an adjacency map; its length
bounds the recursion depth of the DFS below. -/
def depNames (dm : StrMap StrSet) : List String :=
  dm.foldr (fun p acc => p.1 :: p.2 ++ acc) []

/-- The recursive `collectDependents` closure of `getAffectedModules`
(`affected` and `visited` always hold the same elements in the source, so a
single list plays both roles; elements are appended in DFS preorder).  The
fuel argument bounds the recursion depth; `getAffectedModules` passes one
more than the number of names in the map, which is proved sufficient. -/
def collectDependents (dm : StrMap StrSet) : Nat → List String → String → List String
  | 0, visited, _ => visited
  | fuel + 1, visited, id =>
    if id ∈ visited then visited
    else (succsOf dm id).foldl (fun v d => collectDependents dm fuel v d) (visited ++ [id])

/-- `ModuleGraphManager.getAffectedModules`.  The `if (!moduleId) return []`
guard is a JS truthiness test: it fires both when the lookup misses and when
the registered module id is the (falsy) empty string. -/
def getAffectedModules (g : ModuleGraph) (changedFile : String) : List String :=
  match mapGet g.fileToModule changedFile with
  | none => []
  | some moduleId =>
    if moduleId = "" then []
    else collectDependents g.dependents ((depNames g.dependents).length + 1) [] moduleId

/-- Reachability along reverse-dependency (dependents) edges. -/
def reachesDependents (g : ModuleGraph) (a x : String) : Prop :=
  Relation.ReflTransGen (fun u v => v ∈ succsOf g.dependents u) a x

/-- The forward-dependency set of a module (absent entry counts as empty). -/
def depsOf (g : ModuleGraph) (a : String) : StrSet :=
  (mapGet g.dependencies a).getD []

/-- The reverse-dependency (dependents) set of a module. -/
def deptsOf (g : ModuleGraph) (b : String) : StrSet :=
  (mapGet g.dependents b).getD []

/-- Edge-mirroring invariant: A's forward set contains B iff B's dependents
set contains A. -/
def Mirrored (g : ModuleGraph) : Prop :=
  ∀ a b, b ∈ depsOf g a ↔ a ∈ deptsOf g b

/-- Every set stored in the map is duplicate-free (true of JS `Set`). -/
def SetsNodup (dm : StrMap StrSet) : Prop :=
  ∀ k s, mapGet dm k = some s → s.Nodup

/-- Invariants maintained by every `addModule`/`removeModule` sequence. -/
def GraphInv (g : ModuleGraph) : Prop :=
  Mirrored g ∧ SetsNodup g.dependencies ∧ SetsNodup g.dependents

/-- A call against the `ModuleGraphManager` mutable state. -/
inductive GraphOp where
  | add (moduleId filePath : String) (dependencies : List String)
  | remove (moduleId : String)

/-- Interpret one call. -/
def applyOp (g : ModuleGraph) : GraphOp → ModuleGraph
  | GraphOp.add m f ds => addModule g m f ds
  | GraphOp.remove m => removeModule g m

/-- The graph state after a sequence of calls on a fresh manager. -/
def runOps (ops : List GraphOp) : ModuleGraph :=
  ops.foldl applyOp initialGraph

/-- Drop the last `n` elements. -/
def dropLastN (l : List Char) (n : Nat) : List Char := l.take (l.length - n)

/-- ASCII-lowered characters, modelling the `/i` regex flag (all inputs to the
patterns in `route-inference.ts` are ASCII). -/
def lowerL (l : List Char) : List Char := l.map Char.toLower

/-- Case-insensitive "is a prefix of". -/
def isPrefOfCI (pat s : List Char) : Bool := (lowerL pat).isPrefixOf (lowerL s)

/-- Case-insensitive "is a suffix of" (regex `pat$` with `/i`). -/
def endsWithCI (pat s : List Char) : Bool := (lowerL pat).isSuffixOf (lowerL s)

/-- Case-insensitive substring containment. -/
def containsCI (pat : List Char) : List Char → Bool
  | [] => isPrefOfCI pat []
  | s@(_ :: rest) => isPrefOfCI pat s || containsCI pat rest

/-- Split off the final `\.(tsx?|jsx?)$` extension (case-insensitively),
returning the stem before the last dot.  At most one of the four suffixes can
match, so this is exactly the backtracked match of the greedy `(.*)`. -/
def extSplit (s : List Char) : Option (List Char) :=
  if endsWithCI (".tsx").data s then some (dropLastN s 4)
  else if endsWithCI (".ts").data s then some (dropLastN s 3)
  else if endsWithCI (".jsx").data s then some (dropLastN s 4)
  else if endsWithCI (".js").data s then some (dropLastN s 3)
  else none

/-- Leftmost case-insensitive occurrence of one of the directory alternatives
(tried in regex alternation order at each position); returns the rest of the
stem after the matched alternative, i.e. the `$1` capture. -/
def findDirCapture (dirs : List (List Char)) : List Char → Option (List Char)
  | [] => none
  | stem@(_ :: rest) =>
    match dirs.find? (fun d => isPrefOfCI d stem) with
    | some d => some (stem.drop d.length)
    | none => findDirCapture dirs rest

/-- Match `dir\/(.*)\.(tsx?|jsx?)$` (with alternation over `dirs`) and return
the `$1` capture. -/
def matchDirCapture (dirs : List (List Char)) (s : List Char) : Option (List Char) :=
  (extSplit s).bind (fun stem => findDirCapture dirs stem)

/-- Match `app\/(.*)\/tail\.(tsx?|jsx?)$` (tail is `/page` or `/layout`) and
return the `$1` capture: the greedy `(.*)` runs to the last possible `tail`,
which is the one just before the extension dot. -/
def matchAppCapture (tail : List Char) (s : List Char) : Option (List Char) :=
  (extSplit s).bind (fun stem =>
    if endsWithCI tail stem then
      findDirCapture [("app/").data] (dropLastN stem tail.length)
    else none)

/-- `RouteInferrer.normalizePath` with the default empty `basePath`: convert
backslashes and strip one leading slash. -/
def normalizePath (filePath : String) : List Char :=
  let fwd := filePath.data.map (fun c => if c = '\\' then '/' else c)
  match fwd with
  | '/' :: rest => rest
  | l => l

/-- Scan for `\([^)]+\)` starting right after an opening paren: skip at least
one non-`)` character up to the first `)` and return what follows it. -/
def afterParenGo : List Char → Option (List Char)
  | [] => none
  | ')' :: rest => some rest
  | _ :: rest => afterParenGo rest

/-- As `afterParenGo` but requiring at least one character before the `)`. -/
def afterParen : List Char → Option (List Char)
  | [] => none
  | ')' :: _ => none
  | _ :: rest => afterParenGo rest

/-- Global replace of `\([^)]+\)\//g` by the empty string (route-group
erasure).  Fuel bounds the scan; the input length always suffices because
every step consumes at least one character. -/
def eraseGroupsGo : Nat → List Char → List Char
  | 0, s => s
  | _ + 1, [] => []
  | fuel + 1, c :: rest =>
    if c = '(' then
      match afterParen rest with
      | some ('/' :: after2) => eraseGroupsGo fuel after2
      | _ => c :: eraseGroupsGo fuel rest
    else c :: eraseGroupsGo fuel rest

/-- `\w` character class: ASCII letters, digits and underscore. -/
def isWordChar (c : Char) : Bool := c.isAlphanum || c = '_'

/-- Try to match `openTok (\w+) closeTok` at the head of the list, returning
the captured word and the rest after the close token. -/
def matchBracket (openTok closeTok s : List Char) :
    Option (List Char × List Char) :=
  if openTok.isPrefixOf s then
    let rest := s.drop openTok.length
    let w := rest.takeWhile isWordChar
    let rest2 := rest.drop w.length
    if w ≠ [] && closeTok.isPrefixOf rest2 then
      some (w, rest2.drop closeTok.length)
    else none
  else none

/-- Global replace of `openTok(\w+)closeTok` by `mkRep capture`; the scan
moves one character on failure and past the whole match on success. -/
def replaceBracket (openTok closeTok : List Char) (mkRep : List Char → List Char) :
    Nat → List Char → List Char
  | 0, s => s
  | _ + 1, [] => []
  | fuel + 1, s@(c :: rest) =>
    match matchBracket openTok closeTok s with
    | some (w, after) => mkRep w ++ replaceBracket openTok closeTok mkRep fuel after
    | none => c :: replaceBracket openTok closeTok mkRep fuel rest

/-- `RouteInferrer.processDynamicRoute`: erase `(group)/` segments, then
rewrite `[[...slug]] → *`, then `[[id]] → :id?`, then `[...slug] → *`, then
`[id] → :id`, in exactly that order. -/
def processDynamicRoute (route : List Char) : List Char :=
  let r1 := eraseGroupsGo route.length route
  let r2 := replaceBracket ("[[...").data ("]]").data (fun _ => ("*").data) r1.length r1
  let r3 := replaceBracket ("[[").data ("]]").data
    (fun w => ':' :: w ++ [Char.ofNat 63]) r2.length r2
  let r4 := replaceBracket ("[...").data ("]").data (fun _ => ("*").data) r3.length r3
  replaceBracket ("[").data ("]").data (fun w => ':' :: w) r4.length r4

/-- Collapse runs of slashes (`/\/+/g → "/"`). -/
def collapseSlashes : Nat → List Char → List Char
  | 0, s => s
  | _ + 1, [] => []
  | fuel + 1, c :: rest =>
    if c = '/' then '/' :: collapseSlashes fuel (rest.dropWhile (fun d => d = '/'))
    else c :: collapseSlashes fuel rest

/-- `RouteInferrer.normalizeRoute`: rewrite a trailing `/index` to `/`, force
a leading slash, strip one trailing slash (unless root) and collapse repeated
slashes. -/
def normalizeRoute (route : List Char) : List Char :=
  let r1 := if endsWithCI ("/index").data route then dropLastN route 6 ++ ['/'] else route
  let r2 := if r1.head? = some '/' then r1 else '/' :: r1
  let r3 := if r2 ≠ ['/'] && r2.getLast? = some '/' then dropLastN r2 1 else r2
  collapseSlashes r3.length r3

/-- `RouteInferrer.inferRoute` with the default pattern list: try the five
default patterns in order on the normalized path; on the first match, prepend
the `/$1` template, process dynamic segments and normalize. -/
def inferRoute (filePath : String) : Option String :=
  let np := normalizePath filePath
  let cap :=
    ((((matchDirCapture [("pages/").data] np).orElse
      (fun _ => matchDirCapture [("routes/").data] np)).orElse
      (fun _ => matchAppCapture ("/page").data np)).orElse
      (fun _ => matchAppCapture ("/layout").data np)).orElse
      (fun _ => matchDirCapture
        [("components/").data, ("component/").data, ("pages/").data,
         ("page/").data, ("routes/").data, ("route/").data] np)
  cap.map (fun c => String.mk (normalizeRoute (processDynamicRoute ('/' :: c))))

/-- Does the (normalized) path end in `stem.(tsx?|jsx?)` case-insensitively? -/
def endsWithStemExt (stem : String) (np : List Char) : Bool :=
  [("tsx"), ("ts"), ("jsx"), ("js")].any
    (fun e => endsWithCI (stem ++ "." ++ e).data np)

/-- `RouteInferrer.isLayoutFile`: the three layout regex tests. -/
def isLayoutFile (filePath : String) : Bool :=
  let np := normalizePath filePath
  endsWithStemExt "layout" np ||
  endsWithStemExt "_layout" np ||
  (match extSplit np with
   | some stem =>
     endsWithCI ("/layout").data stem &&
     containsCI ("app/").data (dropLastN stem 7)
   | none => false)

/-- `(?:pages?|routes?)\/.*\.(tsx?|jsx?)$` (the directory token must sit
before the extension dot). -/
def pageDirTest (np : List Char) : Bool :=
  match extSplit np with
  | some stem =>
    [("pages/").data, ("page/").data, ("routes/").data, ("route/").data].any
      (fun d => containsCI d stem)
  | none => false

/-- `RouteInferrer.isPageFile` (note `||` binds looser than `&&` in TS). -/
def isPageFile (filePath : String) : Bool :=
  let np := normalizePath filePath
  endsWithStemExt "page" np || (pageDirTest np && !(isLayoutFile filePath))

/-- `components?\/.*\.(tsx?|jsx?)$`. -/
def componentDirTest (np : List Char) : Bool :=
  match extSplit np with
  | some stem =>
    [("components/").data, ("component/").data].any (fun d => containsCI d stem)
  | none => false

/-- `RouteInferrer.isComponentFile`. -/
def isComponentFile (filePath : String) : Bool :=
  componentDirTest (normalizePath filePath) &&
  !(isLayoutFile filePath) && !(isPageFile filePath)

/-- An output file entry ({path, contents}) carried by build results and HMR
messages; contents are opaque bytes. -/
structure HMRFile where
  path : String
  contents : Option (List Nat) := none
deriving DecidableEq

/-- The resolved value of the Builder's `rebuild` promise. -/
structure BuildResult where
  outputFiles : Option (List HMRFile) := none
  chunkUrl : Option String := none
  routePath : Option String := none
deriving DecidableEq

/-- `DevTools.isConfigFile`: every pattern is an anchored case-insensitive
suffix test. -/
def isConfigFile (filePath : String) : Bool :=
  [("deno.json"), ("package.json"), ("tsconfig.json"),
   ("vite.config.ts"), ("vite.config.js"),
   ("webpack.config.ts"), ("webpack.config.js"),
   ("rollup.config.ts"), ("rollup.config.js"),
   ("esbuild.config.ts"), ("esbuild.config.js"),
   ("tailwind.config.ts"), ("tailwind.config.js"),
   (".config.ts"), (".config.js"), (".config.json")].any
    (fun p => endsWithCI p.data filePath.data)

/-- `/\.(ts|js|mjs|tsx|jsx)$/` (case-sensitive, unlike the others). -/
def jsModuleExt (filePath : String) : Bool :=
  [(".ts"), (".js"), (".mjs"), (".tsx"), (".jsx")].any
    (fun e => e.data.isSuffixOf filePath.data)

/-- `DevTools.determineUpdateType`: classify a changed path. -/
def determineUpdateType (filePath : String) : String :=
  if isConfigFile filePath then "config-update"
  else if (".css").data.isSuffixOf filePath.data then "css-update"
  else if isLayoutFile filePath then "layout-update"
  else if isPageFile filePath then "component-update"
  else if isComponentFile filePath then "component-update"
  else if jsModuleExt filePath then "module-update"
  else "update"

/-- `DevTools.inferRouteFromPath`: route inference with `/` as fallback. -/
def inferRouteFromPath (filePath : String) : String :=
  (inferRoute filePath).getD "/"

/-- The broadcast message assembled by the orchestrator (absent JSON fields
are `none`). -/
structure UpdateMessage where
  type : String
  path : Option String := none
  files : Option (List HMRFile) := none
  route : Option String := none
  moduleId : Option String := none
  affectedModules : Option (List String) := none
  chunkUrl : Option String := none
  routePath : Option String := none
  componentPath : Option String := none
  layoutPath : Option String := none
  message : Option String := none
deriving DecidableEq

/-- The `updateMessage` assembled in `runRebuildForPath` after a successful
rebuild, including the per-classification field tweaks. -/
def buildUpdateMessage (g : ModuleGraph) (path : String) (result : BuildResult) :
    UpdateMessage :=
  let updateType := determineUpdateType path
  let base : UpdateMessage :=
    { type := updateType, path := some path, files := result.outputFiles,
      route := some (inferRouteFromPath path), moduleId := getModuleId g path,
      affectedModules := some (getAffectedModules g path),
      chunkUrl := result.chunkUrl, routePath := result.routePath }
  if updateType = "config-update" then { base with type := "reload" }
  else if updateType = "component-update" then { base with componentPath := some path }
  else if updateType = "layout-update" then { base with layoutPath := some path }
  else if updateType = "module-update" then { base with moduleId := some path }
  else base

/-- Observable outcome of one debounced rebuild cycle: the messages
broadcast, and the `(success, error)` pair passed to
`performanceMonitor.endUpdate` (or `none` when no builder is configured and
no sample is recorded). -/
structure CycleOut where
  broadcast : List UpdateMessage
  recorded : Option (Bool × Option String)
deriving DecidableEq

/-- `DevTools.runRebuildForPath`: the builder argument is `none` when no
builder is configured, otherwise the settled rebuild promise (`Except.error`
for a rejection). -/
def runRebuildForPath (g : ModuleGraph) (path : String)
    (builder : Option (Except String BuildResult)) : CycleOut :=
  match builder with
  | none =>
    let updateType := determineUpdateType path
    { broadcast := [{ type := if updateType = "css-update" then "css-update" else "reload",
                      path := some path, route := some (inferRouteFromPath path) }],
      recorded := none }
  | some (Except.ok result) =>
    { broadcast := [buildUpdateMessage g path result], recorded := some (true, none) }
  | some (Except.error e) =>
    { broadcast := [{ type := "error", message := some e }],
      recorded := some (false, some e) }

/-- A browser-side HMR message. -/
structure HMRMessage where
  type : String
  path : Option String := none
  files : Option (List HMRFile) := none
  message : Option String := none
  moduleId : Option String := none
  componentPath : Option String := none
  layoutPath : Option String := none
  route : Option String := none
deriving DecidableEq

/-- The fixed message-priority table of `HMRClient.mergeUpdates`. -/
def priorityOf : String → Nat
  | "reload" => 0
  | "error" => 1
  | "css-update" => 2
  | "component-update" => 3
  | "layout-update" => 4
  | "module-update" => 5
  | "update" => 6
  | _ => 999

/-- `sortedMessages[0]` after the stable priority sort: the first message of
minimal priority. -/
def pickPrimary (m : HMRMessage) (ms : List HMRMessage) : HMRMessage :=
  ms.foldl (fun best x => if priorityOf x.type < priorityOf best.type then x else best) m

/-- The `allPaths` set: first-seen-ordered union of the truthy `path`
fields. -/
def pathsUnion (msgs : List HMRMessage) : List String :=
  msgs.foldl
    (fun acc msg => match msg.path with
      | some p => if p = "" then acc else setAdd acc p
      | none => acc) []

/-- The `allFiles` array: concatenation of all present `files` arrays. -/
def filesUnion (msgs : List HMRMessage) : List HMRFile :=
  msgs.foldl (fun acc msg => acc ++ msg.files.getD []) []

/-- The `allRoutes` set: first-seen-ordered union of the truthy `route`
fields. -/
def routesUnion (msgs : List HMRMessage) : List String :=
  msgs.foldl
    (fun acc msg => match msg.route with
      | some r => if r = "" then acc else setAdd acc r
      | none => acc) []

/-- One step of a stable ascending insertion sort by priority: the inserted
message goes before the first already-placed message of strictly greater
priority.  Under `sortByPriority`'s right fold every already-placed message
arrived later, so equal-priority ties keep arrival order, exactly the
observable behaviour of the (ES2019-stable) in-place `Array.prototype.sort`
with the comparator `aPriority - bPriority`. -/
def insertByPriority (x : HMRMessage) : List HMRMessage → List HMRMessage
  | [] => [x]
  | y :: ys =>
    if priorityOf y.type < priorityOf x.type then y :: insertByPriority x ys
    else x :: y :: ys

/-- The stably priority-sorted batch (`messages.sort((a, b) => aPriority -
bPriority)`, which sorts the `messages` array in place). -/
def sortByPriority (msgs : List HMRMessage) : List HMRMessage :=
  msgs.foldr insertByPriority []

/-- `HMRClient.mergeUpdates` (`none` models the thrown error on an empty
batch; a singleton batch is returned unchanged).  The source sorts `messages`
in place before the union loop, so `primary` is the sorted head and the
path/files/route unions are built over the sorted array; the inner `[]` case
is unreachable since sorting preserves length. -/
def mergeUpdates : List HMRMessage → Option HMRMessage
  | [] => none
  | [m] => some m
  | m :: ms =>
    match sortByPriority (m :: ms) with
    | [] => none
    | primary :: sortedRest =>
      let allPaths := pathsUnion (primary :: sortedRest)
      let allFiles := filesUnion (primary :: sortedRest)
      let allRoutes := routesUnion (primary :: sortedRest)
      some { primary with
        path := match allPaths.head? with
          | some p => some p
          | none => primary.path,
        files := if allFiles ≠ [] then some allFiles else primary.files,
        route := match allRoutes.head? with
          | some r => some r
          | none => primary.route }

/-- `split("?")[0].split("#")[0]`. -/
def stripQueryHash (s : List Char) : List Char :=
  (s.takeWhile (fun c => c ≠ '?')).takeWhile (fun c => c ≠ '#')

/-- `HMRClient.normalizeRoute` (browser side): empty route becomes `/`, query
and hash are stripped, a leading slash is forced and one trailing slash is
removed unless the route is the root. -/
def clientNormalizeRoute (route : List Char) : List Char :=
  if route = [] then ['/']
  else
    let path := stripQueryHash route
    let normalized := if path.head? = some '/' then path else '/' :: path
    if normalized = ['/'] then normalized
    else if normalized.getLast? = some '/' then dropLastN normalized 1
    else normalized

/-- `split("/").filter(Boolean)`. -/
def splitSegments (s : List Char) : List (List Char) :=
  (s.splitOn '/').filter (fun seg => seg ≠ [])

/-- The per-segment comparison loop: a `:param` or `*` route segment always
matches, otherwise the literal segments must be equal. -/
def segPairsOk (rs cs : List (List Char)) : Bool :=
  (rs.zip cs).all
    (fun p => if p.1.head? == some ':' || p.1 == [('*' : Char)] then true else p.1 == p.2)

/-- What the browser can see of its environment: the injected
`__RENDER_DATA__.loadContext.url` when present, and `location.pathname`. -/
structure ClientEnv where
  renderUrl : Option String
  pathname : String

/-- `HMRClient.isCurrentRoute`: with an injected render-context URL the
comparison is exact equality of normalized routes; only the location-path
fallback path does exact-then-segment-wise matching. -/
def isCurrentRoute (env : ClientEnv) (route : String) : Bool :=
  match env.renderUrl with
  | some url =>
    clientNormalizeRoute (stripQueryHash url.data) == clientNormalizeRoute route.data
  | none =>
    let ncp := clientNormalizeRoute env.pathname.data
    let nr := clientNormalizeRoute route.data
    if ncp == nr then true
    else
      let cs := splitSegments ncp
      let rs := splitSegments nr
      if cs.length ≠ rs.length then false
      else segPairsOk rs cs

/-- The route gate at the top of `HMRClient.handleUpdate`: a truthy `route`
that is not the current route drops the update. -/
def handleUpdateProceeds (env : ClientEnv) (msg : HMRMessage) : Bool :=
  match msg.route with
  | some r => if r = "" then true else isCurrentRoute env r
  | none => true

/-- The reconnection counters of `HMRClient`. -/
structure ReconnectState where
  reconnectAttempts : Nat
  reconnectDelay : ℚ
deriving DecidableEq

/-- Constructor state: zero attempts, 1000 ms base delay. -/
def initReconnect : ReconnectState := { reconnectAttempts := 0, reconnectDelay := 1000 }

def maxReconnectAttempts : Nat := 10

def maxReconnectDelay : ℚ := 30000

def reconnectDelayMultiplier : ℚ := 3 / 2

/-- `HMRClient.scheduleReconnect`: below the cap, bump the counter and
schedule `min(delay * multiplier^(attempt-1), maxDelay)`; at the cap schedule
nothing and reset the counters for a future manual connect.  (The JS doubles
involved are exact, so ℚ models them faithfully.) -/
def scheduleReconnect (s : ReconnectState) : ReconnectState × Option ℚ :=
  if s.reconnectAttempts < maxReconnectAttempts then
    let att := s.reconnectAttempts + 1
    ({ s with reconnectAttempts := att },
     some (min (s.reconnectDelay * reconnectDelayMultiplier ^ (att - 1)) maxReconnectDelay))
  else
    ({ reconnectAttempts := 0, reconnectDelay := 1000 }, none)

/-- The `onopen` handler's counter reset. -/
def onOpenReset (_s : ReconnectState) : ReconnectState :=
  { reconnectAttempts := 0, reconnectDelay := 1000 }

/-- A failure cascade with `n` connection losses on offer: each scheduled
timer fires, the connect fails, and `onclose` calls `scheduleReconnect`
again; once nothing is scheduled no further events can occur. -/
def reconnectCascade : Nat → ReconnectState → List ℚ
  | 0, _ => []
  | n + 1, s =>
    match scheduleReconnect s with
    | (s2, some d) => d :: reconnectCascade n s2
    | (_, none) => []

/-- One sample of `HMRPerformanceMonitor`. -/
structure PerfMetric where
  startTime : Int
  endTime : Option Int := none
  duration : Option Int := none
  moduleCount : Nat
  filePaths : List String
  updateType : String
  success : Bool
  error : Option String := none
deriving DecidableEq

/-- `HMRPerformanceMonitor` state (times are supplied by the caller,
modelling `performance.now()`). -/
structure PerfMonitor where
  metrics : List PerfMetric
  currentUpdate : Option PerfMetric
deriving DecidableEq

def freshMonitor : PerfMonitor := { metrics := [], currentUpdate := none }

def maxMetrics : Nat := 100

/-- `HMRPerformanceMonitor.startUpdate`. -/
def startUpdate (mon : PerfMonitor) (now : Int) (filePaths : List String)
    (updateType : String) : PerfMonitor :=
  let cu : PerfMetric :=
    { startTime := now, moduleCount := filePaths.length, filePaths := filePaths,
      updateType := updateType, success := false }
  { mon with currentUpdate := some cu }

/-- `HMRPerformanceMonitor.endUpdate`: finalize the in-flight sample, append
it, and evict the oldest entry once the buffer would exceed `maxMetrics`
(an empty-string error is falsy and is not stored). -/
def endUpdate (mon : PerfMonitor) (now : Int) (success : Bool)
    (error : Option String) : PerfMonitor :=
  match mon.currentUpdate with
  | none => mon
  | some cu =>
    let newErr := match error with
      | some e => if e = "" then cu.error else some e
      | none => cu.error
    let cu2 := { cu with
      endTime := some now
      duration := some (now - cu.startTime)
      success := success
      error := newErr }
    let ms := mon.metrics ++ [cu2]
    { metrics := if maxMetrics < ms.length then ms.drop 1 else ms,
      currentUpdate := none }

/-- JS truthiness of the optional `duration` field (`0` is falsy). -/
def durTruthy : Option Int → Bool
  | none => false
  | some d => d ≠ 0

/-- The `successfulMetrics` filter of `getStats` (`m.success && m.duration`). -/
def successfulMetrics (ms : List PerfMetric) : List PerfMetric :=
  ms.filter (fun m => m.success && durTruthy m.duration)

/-- The aggregate returned by `getStats`. -/
structure PerfStats where
  totalUpdates : Nat
  successfulUpdates : Nat
  failedUpdates : Nat
  averageDuration : ℚ
  maxDuration : Int
  minDuration : Int
  totalDuration : Int
deriving DecidableEq

/-- `HMRPerformanceMonitor.getStats`. -/
def getStats (mon : PerfMonitor) : PerfStats :=
  let sm := successfulMetrics mon.metrics
  let durations : List Int := sm.map (fun m => m.duration.getD 0)
  { totalUpdates := mon.metrics.length
    successfulUpdates := sm.length
    failedUpdates := mon.metrics.length - sm.length
    averageDuration :=
      if 0 < durations.length then (durations.sum : ℚ) / (durations.length : ℚ) else 0
    maxDuration := (durations.max?).getD 0
    minDuration := (durations.min?).getD 0
    totalDuration := durations.sum }

/-- One `startUpdate`/`endUpdate` bracket with its observed times and
outcome. -/
structure PerfCycle where
  startAt : Int
  paths : List String
  updateType : String
  endAt : Int
  success : Bool
  error : Option String
deriving DecidableEq

/-- Run one bracket against the monitor. -/
def runCycle (mon : PerfMonitor) (c : PerfCycle) : PerfMonitor :=
  endUpdate (startUpdate mon c.startAt c.paths c.updateType) c.endAt c.success c.error

/-- Run a whole sequence of brackets on a fresh monitor. -/
def runCycles (cs : List PerfCycle) : PerfMonitor :=
  cs.foldl runCycle freshMonitor

/-- The sample a single bracket records. -/
def cycleSample (c : PerfCycle) : PerfMetric :=
  { startTime := c.startAt, endTime := some c.endAt,
    duration := some (c.endAt - c.startAt), moduleCount := c.paths.length,
    filePaths := c.paths, updateType := c.updateType, success := c.success,
    error := match c.error with
      | some e => if e = "" then none else some e
      | none => none }

/-- Names of the adjacency map not yet visited; the DFS measure. -/
def unvisited (dm : StrMap StrSet) (v : List String) : Finset String :=
  (depNames dm).toFinset \ v.toFinset

/-- A concrete cyclic graph (a ⇄ b, c → a) used to witness the
`getAffectedModules` specification. -/
def witnessGraphC1 : ModuleGraph :=
  runOps [GraphOp.add "a" "a.ts" ["b"], GraphOp.add "b" "b.ts" ["a"],
          GraphOp.add "c" "c.ts" ["a"]]

/-- What `mapGet` returns at a key touched by one of the `removeModule`
loops: the stored set with `m` erased, or nothing if that left it empty. -/
def pruneGet (m : String) (o : Option StrSet) : Option StrSet :=
  match o with
  | none => none
  | some s =>
    let s2 := s.erase m
    if s2 = [] then none else some s2

/-- A concrete call sequence used to witness the mirroring invariant. -/
def witnessOpsC2 : List GraphOp :=
  [GraphOp.add "a" "a.ts" ["b", "c"], GraphOp.add "b" "b.ts" ["a"],
   GraphOp.remove "c"]

/-- A concrete call sequence used to witness `removeModule` cleanliness. -/
def witnessOpsC3 : List GraphOp :=
  [GraphOp.add "a" "a.ts" ["b", "c"], GraphOp.add "b" "b.ts" ["a"]]

/-- The last `n` elements of a sample list (what survives the ring buffer). -/
def lastN (n : Nat) (l : List PerfMetric) : List PerfMetric :=
  l.drop (l.length - n)

/-- A CSS-update message used to witness the merge specification. -/
def cssMsgW : HMRMessage := { type := "css-update", path := some "/styles/a.css" }

/-- A module-update message used to witness the merge specification. -/
def modMsgW : HMRMessage := { type := "module-update", path := some "/src/b.ts" }

/-- 150 concrete `startUpdate`/`endUpdate` cycles for the recorder witness. -/
def witnessCyclesC9 : List PerfCycle :=
  (List.range 150).map (fun i =>
    { startAt := (i : Int), paths := ["f.ts"], updateType := "update",
      endAt := (i : Int) + 1, success := decide (i % 2 = 0), error := none })

/-- Replace the durations of all failed samples (used to state that the
statistics depend only on successful samples). -/
def perturbFailedDurations (st : PerfMonitor) (f : PerfMetric → Option Int) :
    PerfMonitor :=
  let h := fun (mm : PerfMetric) =>
    if mm.success then mm else { mm with duration := f mm }
  { st with metrics := st.metrics.map h }

/- ------------------------------------------------------------------ -/
/- Theorems.                                                           -/
/- ------------------------------------------------------------------ -/

theorem mapGet_mapSet_self {α : Type} (m : StrMap α) (k : String) (v : α) :
    mapGet (mapSet m k v) k = some v := by
  induction m with
  | nil => simp [mapSet, mapGet]
  | cons p rest ih =>
    by_cases h : p.1 = k
    · simp [mapSet, h, mapGet]
    · simp [mapSet, h, mapGet, ih]

theorem mapGet_mapSet_ne {α : Type} (m : StrMap α) (k : String) (v : α)
    (x : String) (hx : x ≠ k) : mapGet (mapSet m k v) x = mapGet m x := by
  have hkx : ¬ k = x := fun h => hx h.symm
  induction m with
  | nil => simp [mapSet, mapGet, hkx]
  | cons p rest ih =>
    by_cases h : p.1 = k
    · simp [mapSet, h, mapGet, hkx]
    · simp only [mapSet, if_neg h, mapGet]
      by_cases h2 : p.1 = x <;> simp [h2, ih]

theorem mapGet_mapDelete_self {α : Type} (m : StrMap α) (k : String) :
    mapGet (mapDelete m k) k = none := by
  induction m with
  | nil => simp [mapDelete, mapGet]
  | cons p rest ih =>
    simp only [mapDelete, List.filter_cons] at ih ⊢
    by_cases h : p.1 = k
    · simp [h, ih]
    · simp [h, mapGet, ih]

theorem mapGet_mapDelete_ne {α : Type} (m : StrMap α) (k x : String)
    (hx : x ≠ k) : mapGet (mapDelete m k) x = mapGet m x := by
  induction m with
  | nil => simp [mapDelete, mapGet]
  | cons p rest ih =>
    have hkx : ¬ k = x := fun h2 => hx h2.symm
    have hxk : ¬ x = k := fun h2 => hx h2
    simp only [mapDelete, List.filter_cons] at ih ⊢
    by_cases h : p.1 = k
    · have hpx : ¬ p.1 = x := by rw [h]; exact hkx
      simp [h, mapGet, hpx, ih, hkx]
    · by_cases h2 : p.1 = x
      · simp [h, h2, mapGet, hxk]
      · simp [h, h2, mapGet, ih]

theorem mem_setAdd {s : StrSet} {x y : String} :
    y ∈ setAdd s x ↔ y ∈ s ∨ y = x := by
  by_cases h : x ∈ s
  · simp only [setAdd, if_pos h]
    exact ⟨Or.inl, fun hy => hy.elim id (fun e => e ▸ h)⟩
  · simp [setAdd, if_neg h]

theorem nodup_setAdd {s : StrSet} (x : String) (h : s.Nodup) :
    (setAdd s x).Nodup := by
  by_cases hx : x ∈ s
  · simpa [setAdd, hx] using h
  · simp [setAdd, hx, List.nodup_append, h]

theorem setAdd_idem (s : StrSet) (x : String) :
    setAdd (setAdd s x) x = setAdd s x := by
  have h : x ∈ setAdd s x := mem_setAdd.mpr (Or.inr rfl)
  conv_lhs => rw [setAdd]
  rw [if_pos h]

theorem mem_foldl_setAdd (ds : List String) :
    ∀ (base : StrSet) (y : String),
      y ∈ ds.foldl setAdd base ↔ y ∈ base ∨ y ∈ ds := by
  induction ds with
  | nil => intro base y; simp
  | cons d rest ih =>
    intro base y
    simp only [List.foldl_cons, ih, mem_setAdd, List.mem_cons]
    tauto

theorem nodup_foldl_setAdd (ds : List String) :
    ∀ (base : StrSet), base.Nodup → (ds.foldl setAdd base).Nodup := by
  induction ds with
  | nil => intro base h; exact h
  | cons d rest ih => intro base h; exact ih _ (nodup_setAdd d h)

theorem foldl_subset_init (f : List String → String → List String)
    (hf : ∀ v i, v ⊆ f v i) :
    ∀ (l : List String) (v), v ⊆ List.foldl f v l := by
  intro l
  induction l with
  | nil => intro v; simp
  | cons i rest ih => intro v a ha; exact ih (f v i) (hf v i ha)

theorem foldl_preserve {P : List String → Prop}
    (f : List String → String → List String)
    (hf : ∀ v i, P v → P (f v i)) :
    ∀ (l : List String) (v), P v → P (List.foldl f v l) := by
  intro l
  induction l with
  | nil => intro v h; exact h
  | cons i rest ih => intro v h; exact ih (f v i) (hf v i h)

theorem collect_subset (dm : StrMap StrSet) :
    ∀ (fuel : Nat) (v : List String) (id : String),
      v ⊆ collectDependents dm fuel v id := by
  intro fuel
  induction fuel with
  | zero => intro v id; simp [collectDependents]
  | succ f ih =>
    intro v id
    by_cases hid : id ∈ v
    · simp [collectDependents, hid]
    · simp only [collectDependents, if_neg hid]
      intro a ha
      exact foldl_subset_init _ (fun v' i => ih v' i) _ _ (by simp [ha])

theorem collect_nodup (dm : StrMap StrSet) :
    ∀ (fuel : Nat) (v : List String) (id : String),
      v.Nodup → (collectDependents dm fuel v id).Nodup := by
  intro fuel
  induction fuel with
  | zero => intro v id h; simpa [collectDependents] using h
  | succ f ih =>
    intro v id h
    by_cases hid : id ∈ v
    · simpa [collectDependents, hid] using h
    · simp only [collectDependents, if_neg hid]
      refine foldl_preserve _ (fun v' i hv' => ih v' i hv') _ _ ?_
      simp [List.nodup_append, h, hid]

theorem collect_mem_self (dm : StrMap StrSet) :
    ∀ (fuel : Nat) (v : List String) (id : String),
      1 ≤ fuel → id ∈ collectDependents dm fuel v id := by
  intro fuel
  cases fuel with
  | zero => intro v id h; exact absurd h (by simp)
  | succ f =>
    intro v id _
    by_cases hid : id ∈ v
    · simp only [collectDependents, if_pos hid]; exact hid
    · simp only [collectDependents, if_neg hid]
      exact foldl_subset_init _ (fun v' i => collect_subset dm f v' i) _ _ (by simp)

theorem collect_sound_fold (dm : StrMap StrSet) (f : Nat)
    (ih : ∀ (v : List String) (i x : String),
      x ∈ collectDependents dm f v i →
      x ∈ v ∨ Relation.ReflTransGen (fun u w => w ∈ succsOf dm u) i x) :
    ∀ (l : List String) (v : List String) (x : String),
      x ∈ List.foldl (fun v d => collectDependents dm f v d) v l →
      x ∈ v ∨ ∃ i ∈ l, Relation.ReflTransGen (fun u w => w ∈ succsOf dm u) i x := by
  intro l
  induction l with
  | nil => intro v x hx; exact Or.inl hx
  | cons i rest ihl =>
    intro v x hx
    rcases ihl (collectDependents dm f v i) x hx with h | ⟨j, hj, hr⟩
    · rcases ih v i x h with h2 | hr
      · exact Or.inl h2
      · exact Or.inr ⟨i, by simp, hr⟩
    · exact Or.inr ⟨j, by simp [hj], hr⟩

theorem collect_sound (dm : StrMap StrSet) :
    ∀ (fuel : Nat) (v : List String) (id x : String),
      x ∈ collectDependents dm fuel v id →
      x ∈ v ∨ Relation.ReflTransGen (fun u w => w ∈ succsOf dm u) id x := by
  intro fuel
  induction fuel with
  | zero => intro v id x hx; exact Or.inl (by simpa [collectDependents] using hx)
  | succ f ih =>
    intro v id x hx
    by_cases hid : id ∈ v
    · simp only [collectDependents, if_pos hid] at hx
      exact Or.inl hx
    · simp only [collectDependents, if_neg hid] at hx
      rcases collect_sound_fold dm f ih _ _ _ hx with h | ⟨i, hi, hr⟩
      · rcases List.mem_append.mp h with h2 | h2
        · exact Or.inl h2
        · right
          have : x = id := by simpa using h2
          exact this ▸ Relation.ReflTransGen.refl
      · exact Or.inr (Relation.ReflTransGen.head hi hr)

theorem mem_depNames_key (dm : StrMap StrSet) (k : String) (s : StrSet)
    (h : mapGet dm k = some s) : k ∈ depNames dm := by
  induction dm with
  | nil => simp [mapGet] at h
  | cons p rest ih =>
    simp only [mapGet] at h
    by_cases hk : p.1 = k
    · simp [depNames, hk]
    · simp only [if_neg hk] at h
      have h2 := ih h
      simp only [depNames, List.foldr_cons] at h2 ⊢
      simp only [List.mem_cons, List.mem_append]
      exact Or.inr h2

theorem mem_depNames_val (dm : StrMap StrSet) (k : String) (s : StrSet)
    (x : String) (h : mapGet dm k = some s) (hx : x ∈ s) : x ∈ depNames dm := by
  induction dm with
  | nil => simp [mapGet] at h
  | cons p rest ih =>
    simp only [mapGet] at h
    by_cases hk : p.1 = k
    · simp only [if_pos hk] at h
      have : x ∈ p.2 := by rw [← Option.some_inj.mp h] at hx; exact hx
      simp [depNames, this]
    · simp only [if_neg hk] at h
      have h2 := ih h
      simp only [depNames, List.foldr_cons] at h2 ⊢
      simp only [List.mem_cons, List.mem_append]
      exact Or.inr h2

theorem succs_subset_depNames (dm : StrMap StrSet) (id x : String)
    (hx : x ∈ succsOf dm id) : x ∈ depNames dm := by
  unfold succsOf at hx
  cases h : mapGet dm id with
  | none => rw [h] at hx; simp at hx
  | some s => rw [h] at hx; exact mem_depNames_val dm id s x h hx

theorem unvisited_antitone (dm : StrMap StrSet) {v v' : List String}
    (h : v ⊆ v') : unvisited dm v' ⊆ unvisited dm v := by
  intro x hx
  simp only [unvisited, Finset.mem_sdiff, List.mem_toFinset] at hx ⊢
  exact ⟨hx.1, fun h2 => hx.2 (h h2)⟩

theorem unvisited_card_le (dm : StrMap StrSet) {v v' : List String}
    (h : v ⊆ v') : (unvisited dm v').card ≤ (unvisited dm v).card :=
  Finset.card_le_card (unvisited_antitone dm h)

theorem unvisited_card_lt (dm : StrMap StrSet) {v : List String} {id : String}
    (hn : id ∈ depNames dm) (hv : id ∉ v) :
    (unvisited dm (v ++ [id])).card < (unvisited dm v).card := by
  apply Finset.card_lt_card
  rw [Finset.ssubset_iff_of_subset (unvisited_antitone dm (by intro a ha; simp [ha]))]
  refine ⟨id, ?_, ?_⟩
  · simp [unvisited, Finset.mem_sdiff, hn, hv]
  · simp [unvisited, Finset.mem_sdiff]

theorem collect_closed_fold (dm : StrMap StrSet) (f : Nat)
    (ihc : ∀ (v : List String) (id : String),
      (unvisited dm v).card + 1 ≤ f →
      ∀ a ∈ collectDependents dm f v id,
        a ∈ v ∨ ∀ b ∈ succsOf dm a, b ∈ collectDependents dm f v id) :
    ∀ (l : List String) (v : List String), (unvisited dm v).card + 1 ≤ f →
      (∀ i ∈ l, i ∈ List.foldl (fun v d => collectDependents dm f v d) v l) ∧
      (∀ a ∈ List.foldl (fun v d => collectDependents dm f v d) v l,
        a ∈ v ∨ ∀ b ∈ succsOf dm a,
          b ∈ List.foldl (fun v d => collectDependents dm f v d) v l) := by
  intro l
  induction l with
  | nil =>
    intro v _
    exact ⟨by simp, fun a ha => Or.inl ha⟩
  | cons i rest ihl =>
    intro v hf
    have hsub : v ⊆ collectDependents dm f v i := collect_subset dm f v i
    have hf2 : (unvisited dm (collectDependents dm f v i)).card + 1 ≤ f :=
      le_trans (Nat.add_le_add_right (unvisited_card_le dm hsub) 1) hf
    have hrest := ihl (collectDependents dm f v i) hf2
    have hsub2 : collectDependents dm f v i ⊆
        List.foldl (fun v d => collectDependents dm f v d) (collectDependents dm f v i) rest :=
      foldl_subset_init _ (fun v' d => collect_subset dm f v' d) rest _
    constructor
    · intro j hj
      rcases List.mem_cons.mp hj with h | h
    
      · have : j ∈ collectDependents dm f v i := by
          rw [h]; exact collect_mem_self dm f v i (le_trans (by omega) hf)
        simpa using hsub2 this
      · simpa using hrest.1 j h
    · intro a ha
      rcases hrest.2 a (by simpa using ha) with h | h
      · rcases ihc v i hf a h with h2 | h2
        · exact Or.inl h2
        · right
          intro b hb
          simpa using hsub2 (h2 b hb)
      · right
        intro b hb
        simpa using h b hb

theorem collect_closed (dm : StrMap StrSet) :
    ∀ (fuel : Nat) (v : List String) (id : String),
      (unvisited dm v).card + 1 ≤ fuel →
      ∀ a ∈ collectDependents dm fuel v id,
        a ∈ v ∨ ∀ b ∈ succsOf dm a, b ∈ collectDependents dm fuel v id := by
  intro fuel
  induction fuel with
  | zero => intro v id hf; omega
  | succ f ih =>
    intro v id hf a ha
    by_cases hid : id ∈ v
    · simp only [collectDependents, if_pos hid] at ha ⊢
      exact Or.inl ha
    · simp only [collectDependents, if_neg hid] at ha ⊢
      cases hmg : mapGet dm id with
      | none =>
        have hsucc : succsOf dm id = [] := by simp [succsOf, hmg]
        rw [hsucc] at ha ⊢
        simp only [List.foldl_nil] at ha ⊢
        rcases List.mem_append.mp ha with h | h
        · exact Or.inl h
        · right
          have : a = id := by simpa using h
          rw [this, hsucc]
          simp
      | some s =>
        have hn : id ∈ depNames dm := mem_depNames_key dm id s hmg
        have hlt : (unvisited dm (v ++ [id])).card < (unvisited dm v).card :=
          unvisited_card_lt dm hn hid
        have hf2 : (unvisited dm (v ++ [id])).card + 1 ≤ f := by omega
        have hfold := collect_closed_fold dm f ih (succsOf dm id) (v ++ [id]) hf2
        rcases hfold.2 a ha with h | h
        · rcases List.mem_append.mp h with h2 | h2
          · exact Or.inl h2
          · right
            have ha2 : a = id := by simpa using h2
            rw [ha2]
            intro b hb
            exact hfold.1 b hb
        · exact Or.inr h

/-- C1 (amended).  For every graph state (in particular every state reachable
by `addModule`/`removeModule` calls, cycles included) and every file path `f`,
`getAffectedModules f` is total; if `f`'s path is not registered, or its
registered module id is the empty string (which the source's `if (!moduleId)`
truthiness guard treats like a miss), the result is empty; otherwise it
returns exactly the set of module ids reachable from `f`'s module id along
reverse-dependency (dependents) edges, origin included, with no duplicates.
(The chosen fuel is proved sufficient, which is the termination content of
the claim.) -/
theorem getAffectedModules_spec (g : ModuleGraph) (f : String) :
    (mapGet g.fileToModule f = none → getAffectedModules g f = []) ∧
    (mapGet g.fileToModule f = some "" → getAffectedModules g f = []) ∧
    ∀ m, mapGet g.fileToModule f = some m → m ≠ "" →
      (getAffectedModules g f).Nodup ∧
      ∀ x, x ∈ getAffectedModules g f ↔ reachesDependents g m x := by
  refine ⟨?_, ?_, ?_⟩
  · intro h
    simp [getAffectedModules, h]
  · intro h
    simp [getAffectedModules, h]
  · intro m hm hne
    have hres : getAffectedModules g f =
        collectDependents g.dependents ((depNames g.dependents).length + 1) [] m := by
      simp [getAffectedModules, hm, hne]
    have hfuel : (unvisited g.dependents []).card + 1 ≤
        (depNames g.dependents).length + 1 := by
      have h1 : (unvisited g.dependents []).card ≤ (depNames g.dependents).length := by
        simp only [unvisited, List.toFinset_nil, Finset.sdiff_empty]
        exact List.toFinset_card_le (depNames g.dependents)
      omega
    rw [hres]
    constructor
    · exact collect_nodup g.dependents _ [] m List.nodup_nil
    · intro x
      constructor
      · intro hx
        rcases collect_sound g.dependents _ [] m x hx with h | h
        · simp at h
        · exact h
      · intro hr
        induction hr with
        | refl =>
          exact collect_mem_self g.dependents _ [] m (by omega)
        | tail hab hbc ih =>
          rcases collect_closed g.dependents _ [] _ hfuel _ ih with h | h
          · simp at h
          · exact h _ hbc

/-- Counterexample for C1 as stated: the call `addModule("", "f.ts")` is
legal and registers module id `""` for `f.ts`; that id is reachable from
itself, yet `getAffectedModules "f.ts"` returns `[]` because the source's
`if (!moduleId)` truthiness guard fires on the falsy empty string — so the
result is empty even though `f.ts` has a registered module id. -/
theorem getAffectedModules_counterexample :
    mapGet (runOps [GraphOp.add "" "f.ts" []]).fileToModule "f.ts" = some "" ∧
    reachesDependents (runOps [GraphOp.add "" "f.ts" []]) "" "" ∧
    getAffectedModules (runOps [GraphOp.add "" "f.ts" []]) "f.ts" = [] :=
  ⟨by decide, Relation.ReflTransGen.refl, by decide⟩

/-- Witness for C1: on a concrete cyclic graph (a ⇄ b, c → a) the query for
`b.ts` contains exactly the three modules, each once, and membership of `c`
follows from the reachability characterization. -/
theorem getAffectedModules_spec_witness :
    mapGet witnessGraphC1.fileToModule "b.ts" = some "b" ∧
    (getAffectedModules witnessGraphC1 "b.ts").Nodup ∧
    "c" ∈ getAffectedModules witnessGraphC1 "b.ts" ∧
    getAffectedModules witnessGraphC1 "b.ts" = ["b", "a", "c"] := by
  have h := (getAffectedModules_spec witnessGraphC1 "b.ts").2.2 "b" (by decide) (by decide)
  have step1 : ("a" : String) ∈ succsOf witnessGraphC1.dependents "b" := by decide
  have step2 : ("c" : String) ∈ succsOf witnessGraphC1.dependents "a" := by decide
  exact ⟨by decide, h.1,
    (h.2 "c").mpr (Relation.ReflTransGen.tail (Relation.ReflTransGen.single step1) step2),
    by decide⟩

theorem mapGet_mapSet {α : Type} (m : StrMap α) (k : String) (v : α)
    (x : String) : mapGet (mapSet m k v) x = if x = k then some v else mapGet m x := by
  by_cases h : x = k
  · rw [if_pos h, h, mapGet_mapSet_self]
  · rw [if_neg h, mapGet_mapSet_ne m k v x h]

theorem mapGet_mapDelete {α : Type} (m : StrMap α) (k x : String) :
    mapGet (mapDelete m k) x = if x = k then none else mapGet m x := by
  by_cases h : x = k
  · rw [if_pos h, h, mapGet_mapDelete_self]
  · rw [if_neg h, mapGet_mapDelete_ne m k x h]

theorem addFold_fst (m : String) (ds : List String) :
    ∀ (a : StrSet) (b : StrMap StrSet),
      (ds.foldl
        (fun acc dep =>
          (setAdd acc.1 dep,
           mapSet acc.2 dep (setAdd ((mapGet acc.2 dep).getD []) m))) (a, b)).1
      = ds.foldl setAdd a := by
  induction ds with
  | nil => intro a b; rfl
  | cons d rest ih => intro a b; exact ih (setAdd a d) _

theorem addFold_snd_get (m : String) (ds : List String) :
    ∀ (a : StrSet) (b : StrMap StrSet) (y : String),
      mapGet (ds.foldl
        (fun acc dep =>
          (setAdd acc.1 dep,
           mapSet acc.2 dep (setAdd ((mapGet acc.2 dep).getD []) m))) (a, b)).2 y
      = if y ∈ ds then some (setAdd ((mapGet b y).getD []) m) else mapGet b y := by
  induction ds with
  | nil => intro a b y; simp
  | cons dep rest ih =>
    intro a b y
    simp only [List.foldl_cons]
    rw [ih]
    by_cases hyd : y = dep
    · subst hyd
      rw [mapGet_mapSet_self]
      by_cases hyr : y ∈ rest
      · simp [hyr, setAdd_idem]
      · simp [hyr]
    · rw [mapGet_mapSet_ne _ _ _ _ hyd]
      by_cases hyr : y ∈ rest
      · simp [hyr]
      · simp [hyr, hyd]

theorem addModule_deps_get (g : ModuleGraph) (m f : String) (ds : List String)
    (x : String) :
    mapGet (addModule g m f ds).dependencies x =
      if x = m then some (ds.foldl setAdd ((mapGet g.dependencies m).getD []))
      else mapGet g.dependencies x := by
  show mapGet (mapSet g.dependencies m _) x = _
  rw [mapGet_mapSet]
  rw [addFold_fst]

theorem addModule_depts_get (g : ModuleGraph) (m f : String) (ds : List String)
    (y : String) :
    mapGet (addModule g m f ds).dependents y =
      if y ∈ ds then some (setAdd ((mapGet g.dependents y).getD []) m)
      else mapGet g.dependents y := by
  show mapGet (ds.foldl _ (_, g.dependents)).2 y = _
  rw [addFold_snd_get]

theorem mem_depsOf_addModule (g : ModuleGraph) (m f : String) (ds : List String)
    (a b : String) :
    b ∈ depsOf (addModule g m f ds) a ↔
      (if a = m then b ∈ depsOf g m ∨ b ∈ ds else b ∈ depsOf g a) := by
  unfold depsOf
  rw [addModule_deps_get]
  by_cases h : a = m
  · simp only [if_pos h, Option.getD_some]
    rw [mem_foldl_setAdd]
  · simp only [if_neg h]

theorem mem_deptsOf_addModule (g : ModuleGraph) (m f : String) (ds : List String)
    (a b : String) :
    a ∈ deptsOf (addModule g m f ds) b ↔
      (if b ∈ ds then a ∈ deptsOf g b ∨ a = m else a ∈ deptsOf g b) := by
  unfold deptsOf
  rw [addModule_depts_get]
  by_cases h : b ∈ ds
  · simp only [if_pos h, Option.getD_some]
    rw [mem_setAdd]
  · simp only [if_neg h]

theorem Mirrored_addModule (g : ModuleGraph) (m f : String) (ds : List String)
    (hm : Mirrored g) : Mirrored (addModule g m f ds) := by
  intro a b
  rw [mem_depsOf_addModule, mem_deptsOf_addModule]
  by_cases ham : a = m
  · subst ham
    by_cases hbd : b ∈ ds
    · simp [hbd]
    · simp [hbd, hm a b]
  · by_cases hbd : b ∈ ds
    · simp only [if_neg ham, if_pos hbd]
      constructor
      · intro h; exact Or.inl ((hm a b).mp h)
      · intro h
        rcases h with h | h
        · exact (hm a b).mpr h
        · exact absurd h ham
    · simp [ham, hbd, hm a b]

theorem SetsNodup_addModule_deps (g : ModuleGraph) (m f : String)
    (ds : List String) (hd : SetsNodup g.dependencies) :
    SetsNodup (addModule g m f ds).dependencies := by
  intro k s hks
  rw [addModule_deps_get] at hks
  by_cases h : k = m
  · rw [if_pos h] at hks
    have hbase : ((mapGet g.dependencies m).getD []).Nodup := by
      cases hg : mapGet g.dependencies m with
      | none => simp
      | some s0 => simpa using hd m s0 hg
    rw [← Option.some_inj.mp hks]
    exact nodup_foldl_setAdd ds _ hbase
  · rw [if_neg h] at hks
    exact hd k s hks

theorem SetsNodup_addModule_depts (g : ModuleGraph) (m f : String)
    (ds : List String) (ht : SetsNodup g.dependents) :
    SetsNodup (addModule g m f ds).dependents := by
  intro k s hks
  rw [addModule_depts_get] at hks
  by_cases h : k ∈ ds
  · rw [if_pos h] at hks
    have hbase : ((mapGet g.dependents k).getD []).Nodup := by
      cases hg : mapGet g.dependents k with
      | none => simp
      | some s0 => simpa using ht k s0 hg
    rw [← Option.some_inj.mp hks]
    exact nodup_setAdd m hbase
  · rw [if_neg h] at hks
    exact ht k s hks

theorem rmStep_get (m : String) (dm : StrMap StrSet) (k y : String) :
    mapGet (rmStep m dm k) y = if y = k then pruneGet m (mapGet dm k) else mapGet dm y := by
  unfold rmStep pruneGet
  cases h : mapGet dm k with
  | none =>
    by_cases hyk : y = k
    · simp [hyk, h]
    · simp [hyk]
  | some s =>
    by_cases he : s.erase m = []
    · simp [he, mapGet_mapDelete]
    · simp [he, mapGet_mapSet]

theorem SetsNodup_rmStep (m : String) (dm : StrMap StrSet) (k : String)
    (h : SetsNodup dm) : SetsNodup (rmStep m dm k) := by
  intro x s hx
  rw [rmStep_get] at hx
  by_cases hxk : x = k
  · rw [if_pos hxk] at hx
    unfold pruneGet at hx
    cases hg : mapGet dm k with
    | none => rw [hg] at hx; simp at hx
    | some s0 =>
      rw [hg] at hx
      simp only at hx
      by_cases he : s0.erase m = []
      · simp [he] at hx
      · simp only [if_neg he] at hx
        rw [← Option.some_inj.mp hx]
        exact (h k s0 hg).erase m
  · rw [if_neg hxk] at hx
    exact h x s hx

theorem pruneGet_idem (m : String) (o : Option StrSet)
    (h : ∀ s, o = some s → s.Nodup) : pruneGet m (pruneGet m o) = pruneGet m o := by
  cases o with
  | none => rfl
  | some s =>
    have hm : m ∉ s.erase m := fun hmem =>
      ((List.Nodup.mem_erase_iff (h s rfl)).mp hmem).1 rfl
    by_cases he : s.erase m = []
    · simp [pruneGet, he]
    · simp [pruneGet, he, List.erase_of_not_mem hm]

theorem SetsNodup_rmFold (m : String) (L : List String) :
    ∀ (dm : StrMap StrSet), SetsNodup dm → SetsNodup (L.foldl (rmStep m) dm) := by
  induction L with
  | nil => intro dm h; exact h
  | cons k rest ih => intro dm h; exact ih _ (SetsNodup_rmStep m dm k h)

theorem rmFold_get (m : String) (L : List String) :
    ∀ (dm : StrMap StrSet), SetsNodup dm → ∀ y,
      mapGet (L.foldl (rmStep m) dm) y =
        if y ∈ L then pruneGet m (mapGet dm y) else mapGet dm y := by
  induction L with
  | nil => intro dm _ y; simp
  | cons k rest ih =>
    intro dm h y
    simp only [List.foldl_cons]
    rw [ih _ (SetsNodup_rmStep m dm k h)]
    by_cases hyr : y ∈ rest
    · rw [if_pos hyr, if_pos (List.mem_cons.mpr (Or.inr hyr)), rmStep_get]
      by_cases hyk : y = k
      · rw [if_pos hyk, hyk]
        exact pruneGet_idem m (mapGet dm k) (fun s hs => h k s hs)
      · rw [if_neg hyk]
    · rw [if_neg hyr, rmStep_get]
      by_cases hyk : y = k
      · rw [if_pos hyk, if_pos (List.mem_cons.mpr (Or.inl hyk)), hyk]
      · rw [if_neg hyk, if_neg (by simp [hyk, hyr])]

theorem rmPhase1_fst_get (g : ModuleGraph) (m x : String) :
    mapGet (rmPhase1 g m).1 x = if x = m then none else mapGet g.dependencies x := by
  unfold rmPhase1
  cases h : mapGet g.dependencies m with
  | none =>
    by_cases hxm : x = m
    · simp [hxm, h]
    · simp [hxm]
  | some deps =>
    simp only
    rw [mapGet_mapDelete]

theorem rmPhase1_snd_get (g : ModuleGraph) (m : String)
    (ht : SetsNodup g.dependents) (y : String) :
    mapGet (rmPhase1 g m).2 y =
      (match mapGet g.dependencies m with
       | some deps =>
         if y ∈ deps then pruneGet m (mapGet g.dependents y) else mapGet g.dependents y
       | none => mapGet g.dependents y) := by
  unfold rmPhase1
  cases h : mapGet g.dependencies m with
  | none => simp
  | some deps =>
    simp only
    rw [rmFold_get m deps g.dependents ht y]

theorem rmPhase2_fst_get (m : String) (p : StrMap StrSet × StrMap StrSet)
    (hd : SetsNodup p.1) (x : String) :
    mapGet (rmPhase2 m p).1 x =
      (match mapGet p.2 m with
       | some depts =>
         if x ∈ depts then pruneGet m (mapGet p.1 x) else mapGet p.1 x
       | none => mapGet p.1 x) := by
  unfold rmPhase2
  cases h : mapGet p.2 m with
  | none => simp
  | some depts =>
    simp only
    rw [rmFold_get m depts p.1 hd x]

theorem rmPhase2_snd_get (m : String) (p : StrMap StrSet × StrMap StrSet)
    (y : String) :
    mapGet (rmPhase2 m p).2 y = if y = m then none else mapGet p.2 y := by
  unfold rmPhase2
  cases h : mapGet p.2 m with
  | none =>
    by_cases hym : y = m
    · simp [hym, h]
    · simp [hym]
  | some depts =>
    simp only
    rw [mapGet_mapDelete]

theorem SetsNodup_rmPhase1_fst (g : ModuleGraph) (m : String)
    (hd : SetsNodup g.dependencies) : SetsNodup (rmPhase1 g m).1 := by
  intro k s hks
  rw [rmPhase1_fst_get] at hks
  by_cases hkm : k = m
  · rw [if_pos hkm] at hks; exact absurd hks (by simp)
  · rw [if_neg hkm] at hks; exact hd k s hks

theorem SetsNodup_rmPhase1_snd (g : ModuleGraph) (m : String)
    (ht : SetsNodup g.dependents) : SetsNodup (rmPhase1 g m).2 := by
  unfold rmPhase1
  cases h : mapGet g.dependencies m with
  | none => exact ht
  | some deps => exact SetsNodup_rmFold m deps g.dependents ht

theorem mem_getD_pruneGet (m b : String) (o : Option StrSet)
    (hnd : ∀ s, o = some s → s.Nodup) :
    b ∈ (pruneGet m o).getD [] ↔ b ≠ m ∧ b ∈ o.getD [] := by
  cases o with
  | none => simp [pruneGet]
  | some s =>
    have hiff : b ∈ s.erase m ↔ b ≠ m ∧ b ∈ s :=
      List.Nodup.mem_erase_iff (hnd s rfl)
    by_cases he : s.erase m = []
    · rw [he] at hiff
      simp only [pruneGet, he, if_pos rfl, Option.getD_none, Option.getD_some]
      simpa using fun h1 h2 => hiff.mpr ⟨h1, h2⟩
    · simp only [pruneGet, if_neg he, Option.getD_some]
      exact hiff

theorem pruneGet_ne_nil (m : String) (o : Option StrSet) :
    pruneGet m o ≠ some [] := by
  cases o with
  | none => simp [pruneGet]
  | some s =>
    by_cases he : s.erase m = []
    · simp [pruneGet, he]
    · simp [pruneGet, he]

theorem SetsNodup_mapDelete (dm : StrMap StrSet) (k : String)
    (h : SetsNodup dm) : SetsNodup (mapDelete dm k) := by
  intro x s hx
  rw [mapGet_mapDelete] at hx
  by_cases hxk : x = k
  · rw [if_pos hxk] at hx; exact absurd hx (by simp)
  · rw [if_neg hxk] at hx; exact h x s hx

theorem mem_phase1_snd_m (g : ModuleGraph) (m a : String)
    (hm : Mirrored g) (ht : SetsNodup g.dependents)
    (ham : a ≠ m) (hma : m ∈ depsOf g a) :
    a ∈ (mapGet (rmPhase1 g m).2 m).getD [] := by
  have hdep : a ∈ deptsOf g m := (hm a m).mp hma
  rw [rmPhase1_snd_get g m ht m]
  cases hD : mapGet g.dependencies m with
  | none => exact hdep
  | some deps =>
    by_cases hmd : m ∈ deps
    · simp only [if_pos hmd]
      exact (mem_getD_pruneGet m a (mapGet g.dependents m)
        (fun s hs => ht m s hs)).mpr ⟨ham, hdep⟩
    · simp only [if_neg hmd]
      exact hdep

theorem mem_depsOf_removeModule (g : ModuleGraph) (m : String)
    (hgi : GraphInv g) (a b : String) :
    b ∈ depsOf (removeModule g m) a ↔ a ≠ m ∧ b ≠ m ∧ b ∈ depsOf g a := by
  obtain ⟨hm, hd, ht⟩ := hgi
  have hp1d : SetsNodup (rmPhase1 g m).1 := SetsNodup_rmPhase1_fst g m hd
  have hrm : (removeModule g m).dependencies = (rmPhase2 m (rmPhase1 g m)).1 := rfl
  unfold depsOf
  rw [hrm, rmPhase2_fst_get m _ hp1d a]
  by_cases ham : a = m
  · subst ham
    have h1 : mapGet (rmPhase1 g a).1 a = none := by
      rw [rmPhase1_fst_get, if_pos rfl]
    cases hT : mapGet (rmPhase1 g a).2 a with
    | none => simp [h1]
    | some depts =>
      by_cases had : a ∈ depts
      · simp [had, h1, pruneGet]
      · simp [had, h1]
  · have h1 : mapGet (rmPhase1 g m).1 a = mapGet g.dependencies a := by
      rw [rmPhase1_fst_get, if_neg ham]
    by_cases hin : a ∈ (mapGet (rmPhase1 g m).2 m).getD []
    · cases hT : mapGet (rmPhase1 g m).2 m with
      | none => rw [hT] at hin; simp at hin
      | some depts =>
        rw [hT] at hin
        simp only [Option.getD_some] at hin
        simp only [if_pos hin, h1]
        rw [mem_getD_pruneGet m b (mapGet g.dependencies a) (fun s hs => hd a s hs)]
        tauto
    · have hnm : m ∉ depsOf g a := fun hma =>
        hin (mem_phase1_snd_m g m a hm ht ham hma)
      have h2 : b ∈ (mapGet g.dependencies a).getD [] ↔
          a ≠ m ∧ b ≠ m ∧ b ∈ depsOf g a := by
        unfold depsOf at hnm ⊢
        constructor
        · intro hb
          refine ⟨ham, ?_, hb⟩
          intro hbm
          rw [hbm] at hb
          exact hnm hb
        · exact fun h => h.2.2
      cases hT : mapGet (rmPhase1 g m).2 m with
      | none => rw [h1]; exact h2
      | some depts =>
        rw [hT] at hin
        simp only [Option.getD_some] at hin
        simp only [if_neg hin, h1]
        exact h2

theorem mem_deptsOf_removeModule (g : ModuleGraph) (m : String)
    (hgi : GraphInv g) (a b : String) :
    a ∈ deptsOf (removeModule g m) b ↔ b ≠ m ∧ a ≠ m ∧ a ∈ deptsOf g b := by
  obtain ⟨hm, hd, ht⟩ := hgi
  have hrm : (removeModule g m).dependents = (rmPhase2 m (rmPhase1 g m)).2 := rfl
  unfold deptsOf
  rw [hrm, rmPhase2_snd_get m _ b]
  by_cases hbm : b = m
  · simp [hbm]
  · rw [if_neg hbm, rmPhase1_snd_get g m ht b]
    cases hD : mapGet g.dependencies m with
    | none =>
      have hnb : m ∉ deptsOf g b := by
        intro hmem
        have := (hm m b).mpr hmem
        unfold depsOf at this
        rw [hD] at this
        simp at this
      constructor
      · intro hb
        refine ⟨hbm, ?_, hb⟩
        intro ham
        rw [ham] at hb
        exact hnb hb
      · exact fun h => h.2.2
    | some deps =>
      by_cases hbd : b ∈ deps
      · simp only [if_pos hbd]
        rw [mem_getD_pruneGet m a (mapGet g.dependents b) (fun s hs => ht b s hs)]
        tauto
      · simp only [if_neg hbd]
        have hnb : m ∉ deptsOf g b := by
          intro hmem
          have := (hm m b).mpr hmem
          unfold depsOf at this
          rw [hD] at this
          simp only [Option.getD_some] at this
          exact hbd this
        constructor
        · intro hb
          refine ⟨hbm, ?_, hb⟩
          intro ham
          rw [ham] at hb
          exact hnb hb
        · exact fun h => h.2.2

theorem Mirrored_removeModule (g : ModuleGraph) (m : String)
    (hgi : GraphInv g) : Mirrored (removeModule g m) := by
  intro a b
  rw [mem_depsOf_removeModule g m hgi a b, mem_deptsOf_removeModule g m hgi a b]
  have h := hgi.1 a b
  tauto

theorem SetsNodup_removeModule_deps (g : ModuleGraph) (m : String)
    (hd : SetsNodup g.dependencies) :
    SetsNodup (removeModule g m).dependencies := by
  have hrm : (removeModule g m).dependencies = (rmPhase2 m (rmPhase1 g m)).1 := rfl
  rw [hrm]
  have hp1 : SetsNodup (rmPhase1 g m).1 := SetsNodup_rmPhase1_fst g m hd
  unfold rmPhase2
  cases h : mapGet (rmPhase1 g m).2 m with
  | none => exact hp1
  | some depts => exact SetsNodup_rmFold m depts _ hp1

theorem SetsNodup_removeModule_depts (g : ModuleGraph) (m : String)
    (ht : SetsNodup g.dependents) :
    SetsNodup (removeModule g m).dependents := by
  have hrm : (removeModule g m).dependents = (rmPhase2 m (rmPhase1 g m)).2 := rfl
  rw [hrm]
  have hp1 : SetsNodup (rmPhase1 g m).2 := SetsNodup_rmPhase1_snd g m ht
  unfold rmPhase2
  cases h : mapGet (rmPhase1 g m).2 m with
  | none => exact hp1
  | some depts => exact SetsNodup_mapDelete _ m hp1

theorem GraphInv_initial : GraphInv initialGraph := by
  refine ⟨?_, ?_, ?_⟩
  · intro a b; simp [depsOf, deptsOf, initialGraph, mapGet]
  · intro k s h; simp [initialGraph, mapGet] at h
  · intro k s h; simp [initialGraph, mapGet] at h

theorem GraphInv_applyOp (g : ModuleGraph) (op : GraphOp)
    (h : GraphInv g) : GraphInv (applyOp g op) := by
  cases op with
  | add m f ds =>
    exact ⟨Mirrored_addModule g m f ds h.1,
      SetsNodup_addModule_deps g m f ds h.2.1,
      SetsNodup_addModule_depts g m f ds h.2.2⟩
  | remove m =>
    exact ⟨Mirrored_removeModule g m h,
      SetsNodup_removeModule_deps g m h.2.1,
      SetsNodup_removeModule_depts g m h.2.2⟩

theorem GraphInv_foldl (ops : List GraphOp) :
    ∀ (g : ModuleGraph), GraphInv g → GraphInv (ops.foldl applyOp g) := by
  induction ops with
  | nil => intro g h; exact h
  | cons op rest ih => intro g h; exact ih _ (GraphInv_applyOp g op h)

theorem GraphInv_runOps (ops : List GraphOp) : GraphInv (runOps ops) :=
  GraphInv_foldl ops initialGraph GraphInv_initial

/-- C2.  Every sequence of `addModule`/`removeModule` calls on a fresh
manager preserves the edge-mirroring invariant: for all module ids A and B,
A's forward-dependency set contains B iff B's dependents set contains A
(an absent set counting as empty). -/
theorem addRemove_preserves_mirroring (ops : List GraphOp) (a b : String) :
    b ∈ depsOf (runOps ops) a ↔ a ∈ deptsOf (runOps ops) b :=
  (GraphInv_runOps ops).1 a b

/-- Witness for C2 at a concrete call sequence ending in a removal. -/
theorem addRemove_preserves_mirroring_witness :
    ("b" ∈ depsOf (runOps witnessOpsC2) "a") ∧
    ("a" ∈ deptsOf (runOps witnessOpsC2) "b") :=
  ⟨by decide, (addRemove_preserves_mirroring witnessOpsC2 "a" "b").mp (by decide)⟩

/-- C3 (amended).  For every reachable graph state and module id `m`, after
`removeModule m`: `m` is not a key of either adjacency map and is not a
member of any stored set; the id→path entry for `m` is gone; the path→id
entry at `m`'s path is gone whenever that recorded path is non-empty (the
source's `if (filePath)` truthiness guard skips the delete for an
empty-string path, leaving that entry dangling); and any entry holding an
empty set after the removal already held an empty set before it (sets
emptied by the removal are pruned, leaving no zero-length residue). -/
theorem removeModule_no_residue (ops : List GraphOp) (m : String) :
    mapGet (removeModule (runOps ops) m).dependencies m = none ∧
    mapGet (removeModule (runOps ops) m).dependents m = none ∧
    (∀ x s, mapGet (removeModule (runOps ops) m).dependencies x = some s → m ∉ s) ∧
    (∀ x s, mapGet (removeModule (runOps ops) m).dependents x = some s → m ∉ s) ∧
    mapGet (removeModule (runOps ops) m).moduleToFile m = none ∧
    (∀ p, mapGet (runOps ops).moduleToFile m = some p → p ≠ "" →
      mapGet (removeModule (runOps ops) m).fileToModule p = none) ∧
    (∀ x, mapGet (removeModule (runOps ops) m).dependencies x = some [] →
      mapGet (runOps ops).dependencies x = some []) ∧
    (∀ x, mapGet (removeModule (runOps ops) m).dependents x = some [] →
      mapGet (runOps ops).dependents x = some []) := by
  have hgi := GraphInv_runOps ops
  obtain ⟨hm, hd, ht⟩ := hgi
  set g := runOps ops with hg
  have hp1d : SetsNodup (rmPhase1 g m).1 := SetsNodup_rmPhase1_fst g m hd
  have hdeps : (removeModule g m).dependencies = (rmPhase2 m (rmPhase1 g m)).1 := rfl
  have hdepts : (removeModule g m).dependents = (rmPhase2 m (rmPhase1 g m)).2 := rfl
  have h1m : mapGet (rmPhase1 g m).1 m = none := by
    rw [rmPhase1_fst_get, if_pos rfl]
  refine ⟨?_, ?_, ?_, ?_, ?_, ?_, ?_, ?_⟩
  · rw [hdeps, rmPhase2_fst_get m _ hp1d m]
    cases hT : mapGet (rmPhase1 g m).2 m with
    | none => exact h1m
    | some depts =>
      by_cases hmd : m ∈ depts
      · simp [hmd, h1m, pruneGet]
      · simp [hmd, h1m]
  · rw [hdepts, rmPhase2_snd_get m _ m, if_pos rfl]
  · intro x s hx hms
    have : m ∈ depsOf (removeModule g m) x := by
      unfold depsOf
      rw [hx]
      exact hms
    have h2 := (mem_depsOf_removeModule g m ⟨hm, hd, ht⟩ x m).mp this
    exact h2.2.1 rfl
  · intro x s hx hms
    have : m ∈ deptsOf (removeModule g m) x := by
      unfold deptsOf
      rw [hx]
      exact hms
    have h2 := (mem_deptsOf_removeModule g m ⟨hm, hd, ht⟩ m x).mp this
    exact h2.2.1 rfl
  · show mapGet (mapDelete g.moduleToFile m) m = none
    exact mapGet_mapDelete_self _ m
  · intro p hp hpne
    show mapGet (match mapGet g.moduleToFile m with
      | some fp => if fp = "" then g.fileToModule else mapDelete g.fileToModule fp
      | none => g.fileToModule) p = none
    rw [hp]
    simp only [if_neg hpne]
    exact mapGet_mapDelete_self _ p
  · intro x hx
    rw [hdeps, rmPhase2_fst_get m _ hp1d x] at hx
    have hfromp1 : mapGet (rmPhase1 g m).1 x = some [] → mapGet g.dependencies x = some [] := by
      intro h2
      rw [rmPhase1_fst_get] at h2
      by_cases hxm : x = m
      · rw [if_pos hxm] at h2; exact absurd h2 (by simp)
      · rw [if_neg hxm] at h2; exact h2
    cases hT : mapGet (rmPhase1 g m).2 m with
    | none => rw [hT] at hx; exact hfromp1 hx
    | some depts =>
      rw [hT] at hx
      simp only at hx
      by_cases hxd : x ∈ depts
      · rw [if_pos hxd] at hx
        exact absurd hx (pruneGet_ne_nil m _)
      · rw [if_neg hxd] at hx
        exact hfromp1 hx
  · intro x hx
    rw [hdepts, rmPhase2_snd_get m _ x] at hx
    by_cases hxm : x = m
    · rw [if_pos hxm] at hx; exact absurd hx (by simp)
    · rw [if_neg hxm, rmPhase1_snd_get g m ht x] at hx
      cases hD : mapGet g.dependencies m with
      | none => rw [hD] at hx; exact hx
      | some deps =>
        rw [hD] at hx
        simp only at hx
        by_cases hxd : x ∈ deps
        · rw [if_pos hxd] at hx
          exact absurd hx (pruneGet_ne_nil m _)
        · rw [if_neg hxd] at hx
          exact hx

/-- Counterexample for C3 as stated: register module `m` with the legal but
empty file path `""`; after `removeModule m` the path→id map still contains
the dangling entry `"" ↦ m`, because the source's truthy `if (filePath)`
guard skips the `fileToModule.delete` on the falsy empty string. -/
theorem removeModule_no_residue_counterexample :
    mapGet (runOps [GraphOp.add "m" "" []]).moduleToFile "m" = some "" ∧
    mapGet (removeModule (runOps [GraphOp.add "m" "" []]) "m").moduleToFile "m" = none ∧
    mapGet (removeModule (runOps [GraphOp.add "m" "" []]) "m").fileToModule "" = some "m" := by
  decide

/-- Witness for C3: removing `a` from a concrete two-module graph leaves no
trace of `a` in any map. -/
theorem removeModule_no_residue_witness :
    mapGet (removeModule (runOps witnessOpsC3) "a").dependencies "a" = none ∧
    mapGet (removeModule (runOps witnessOpsC3) "a").dependents "a" = none ∧
    mapGet (removeModule (runOps witnessOpsC3) "a").fileToModule "a.ts" = none ∧
    (∀ s, mapGet (removeModule (runOps witnessOpsC3) "a").dependencies "b" = some s →
      "a" ∉ s) := by
  have h := removeModule_no_residue witnessOpsC3 "a"
  exact ⟨h.1, h.2.1, h.2.2.2.2.2.1 "a.ts" (by decide) (by decide),
    fun s hs => h.2.2.1 "b" s hs⟩

/-- C8.  The default `RouteInferrer` satisfies the four route equations, and
`processDynamicRoute` performs the rewrites in the claimed order — the
double-bracket catch-all collapses to `*` (not to an optional parameter),
the optional parameter to `:id?`, and `(group)/` segments are erased before
any bracket rewriting. -/
theorem inferRoute_default_equations :
    inferRoute "pages/index.tsx" = some "/" ∧
    inferRoute "pages/user/[id].tsx" = some "/user/:id" ∧
    inferRoute "pages/docs/[...slug].tsx" = some "/docs/*" ∧
    inferRoute "pages/(auth)/login.tsx" = some "/login" ∧
    processDynamicRoute (("[[...slug]]").data) = ("*").data ∧
    processDynamicRoute (("[[id]]").data) = (":id?").data ∧
    processDynamicRoute (("[...slug]").data) = ("*").data ∧
    processDynamicRoute (("[id]").data) = (":id").data ∧
    processDynamicRoute (("(group)/[id]").data) = (":id").data := by
  decide

theorem buildUpdateMessage_fields (g : ModuleGraph) (path : String)
    (result : BuildResult) :
    (buildUpdateMessage g path result).type =
      (if determineUpdateType path = "config-update" then "reload"
       else determineUpdateType path) ∧
    (buildUpdateMessage g path result).path = some path ∧
    (buildUpdateMessage g path result).files = result.outputFiles ∧
    (buildUpdateMessage g path result).route = some ((inferRoute path).getD "/") ∧
    (buildUpdateMessage g path result).affectedModules =
      some (getAffectedModules g path) ∧
    (buildUpdateMessage g path result).moduleId =
      (if determineUpdateType path = "module-update" then some path
       else getModuleId g path) ∧
    (buildUpdateMessage g path result).componentPath =
      (if determineUpdateType path = "component-update" then some path else none) ∧
    (buildUpdateMessage g path result).layoutPath =
      (if determineUpdateType path = "layout-update" then some path else none) ∧
    (buildUpdateMessage g path result).chunkUrl = result.chunkUrl ∧
    (buildUpdateMessage g path result).routePath = result.routePath := by
  unfold buildUpdateMessage inferRouteFromPath
  split_ifs with h1 h2 h3 h4 <;> simp_all

/-- C4 (amended).  Whenever a Builder is configured and the rebuild promise
for a settled path resolves, the orchestrator broadcasts exactly one
`UpdateMessage` whose `route` is `RouteInferrer.inferRoute(path)` *with `/`
substituted when inference yields nothing*, whose `affectedModules` is
`DependencyGraph.getAffectedModules(path)`, whose `moduleId` is
`DependencyGraph.getModuleId(path)` *except for a module-update
classification, where it is overwritten with the path itself*, and whose
`type` is the path's classification with `config-update` remapped to
`reload`; component and layout classifications populate
`componentPath`/`layoutPath` with the path, and a successful sample is
recorded. -/
theorem rebuild_success_broadcast (g : ModuleGraph) (path : String)
    (result : BuildResult) :
    (runRebuildForPath g path (some (Except.ok result))).broadcast =
      [buildUpdateMessage g path result] ∧
    (runRebuildForPath g path (some (Except.ok result))).recorded =
      some (true, none) ∧
    (buildUpdateMessage g path result).type =
      (if determineUpdateType path = "config-update" then "reload"
       else determineUpdateType path) ∧
    (buildUpdateMessage g path result).path = some path ∧
    (buildUpdateMessage g path result).files = result.outputFiles ∧
    (buildUpdateMessage g path result).route = some ((inferRoute path).getD "/") ∧
    (buildUpdateMessage g path result).affectedModules =
      some (getAffectedModules g path) ∧
    (buildUpdateMessage g path result).moduleId =
      (if determineUpdateType path = "module-update" then some path
       else getModuleId g path) ∧
    (buildUpdateMessage g path result).componentPath =
      (if determineUpdateType path = "component-update" then some path else none) ∧
    (buildUpdateMessage g path result).layoutPath =
      (if determineUpdateType path = "layout-update" then some path else none) := by
  have h := buildUpdateMessage_fields g path result
  exact ⟨rfl, rfl, h.1, h.2.1, h.2.2.1, h.2.2.2.1, h.2.2.2.2.1, h.2.2.2.2.2.1,
    h.2.2.2.2.2.2.1, h.2.2.2.2.2.2.2.1⟩

/-- Counterexample to C4 as stated: for the settled path `src/app.ts`
(classified `module-update`) on an empty graph, the broadcast message
carries `route = "/"` although `inferRoute` returns nothing, and
`moduleId = "src/app.ts"` although `getModuleId` returns nothing — so the
message's route does not equal `RouteInferrer.inferRoute(path)` and its
moduleId does not equal `DependencyGraph.getModuleId(path)`. -/
theorem rebuild_success_broadcast_counterexample :
    inferRoute "src/app.ts" = none ∧
    getModuleId initialGraph "src/app.ts" = none ∧
    determineUpdateType "src/app.ts" = "module-update" ∧
    (buildUpdateMessage initialGraph "src/app.ts" ({} : BuildResult)).route =
      some "/" ∧
    (buildUpdateMessage initialGraph "src/app.ts" ({} : BuildResult)).moduleId =
      some "src/app.ts" := by
  decide

/-- Witness for C4 (amended) at a concrete page path. -/
theorem rebuild_success_broadcast_witness :
    (runRebuildForPath initialGraph "pages/index.tsx"
      (some (Except.ok ({} : BuildResult)))).broadcast =
      [buildUpdateMessage initialGraph "pages/index.tsx" ({} : BuildResult)] ∧
    (buildUpdateMessage initialGraph "pages/index.tsx" ({} : BuildResult)).route =
      some "/" ∧
    (buildUpdateMessage initialGraph "pages/index.tsx"
      ({} : BuildResult)).componentPath = some "pages/index.tsx" := by
  have h := rebuild_success_broadcast initialGraph "pages/index.tsx" ({} : BuildResult)
  refine ⟨h.1, ?_, ?_⟩
  · rw [h.2.2.2.2.2.1]
    decide
  · rw [h.2.2.2.2.2.2.2.2.1]
    decide

/-- C10.  When the configured Builder's rebuild promise rejects, the
orchestrator broadcasts exactly one message, of type `error` carrying the
failure text, broadcasts no ordinary `UpdateMessage`, and records the
in-flight sample as failed with that text; `endUpdate` stores the failed
sample (the catch handler returns normally, so the rejection never
propagates out of the watch loop). -/
theorem rebuild_failure_handling (g : ModuleGraph) (path e : String) :
    (runRebuildForPath g path (some (Except.error e))).broadcast =
      [{ type := "error", message := some e }] ∧
    (∀ msg ∈ (runRebuildForPath g path (some (Except.error e))).broadcast,
      msg.type = "error") ∧
    (runRebuildForPath g path (some (Except.error e))).recorded =
      some (false, some e) ∧
    (∀ (mon : PerfMonitor) (cu : PerfMetric), mon.currentUpdate = some cu →
      ∀ t : Int,
        (endUpdate mon t false (some e)).currentUpdate = none ∧
        ∃ pre, (endUpdate mon t false (some e)).metrics = pre ++
          [{ cu with
              endTime := some t
              duration := some (t - cu.startTime)
              success := false
              error := if e = "" then cu.error else some e }]) := by
  refine ⟨rfl, ?_, rfl, ?_⟩
  · intro msg hmsg
    have : msg = { type := "error", message := some e } := by
      simpa [runRebuildForPath] using hmsg
    rw [this]
  · intro mon cu hcu t
    unfold endUpdate
    rw [hcu]
    simp only
    constructor
    · trivial
    · by_cases hlen : maxMetrics < (mon.metrics ++
        [{ cu with
            endTime := some t
            duration := some (t - cu.startTime)
            success := false
            error := if e = "" then cu.error else some e }]).length
      · rw [if_pos hlen]
        refine ⟨mon.metrics.drop 1, ?_⟩
        rw [List.drop_append_eq_append_drop]
        have hml : 1 ≤ mon.metrics.length := by
          simp only [List.length_append, List.length_cons, List.length_nil] at hlen
          unfold maxMetrics at hlen
          omega
        congr 1
        have : 1 - mon.metrics.length = 0 := by omega
        rw [this]
        rfl
      · rw [if_neg hlen]
        exact ⟨mon.metrics, rfl⟩

/-- Witness for C10 at a concrete rejection. -/
theorem rebuild_failure_handling_witness :
    (runRebuildForPath initialGraph "x.ts" (some (Except.error "boom"))).recorded =
      some (false, some "boom") ∧
    (endUpdate (startUpdate freshMonitor 1 ["x.ts"] "module-update") 5 false
      (some "boom")).currentUpdate = none := by
  have h := rebuild_failure_handling initialGraph "x.ts" "boom"
  exact ⟨h.2.2.1,
    (h.2.2.2 (startUpdate freshMonitor 1 ["x.ts"] "module-update") _ rfl 5).1⟩

theorem pickPrimary_mem (m : HMRMessage) (ms : List HMRMessage) :
    pickPrimary m ms ∈ m :: ms := by
  suffices h : ∀ (l : List HMRMessage) (b : HMRMessage),
      l.foldl (fun best x => if priorityOf x.type < priorityOf best.type then x else best) b = b ∨
      l.foldl (fun best x => if priorityOf x.type < priorityOf best.type then x else best) b ∈ l by
    rcases h ms m with h1 | h1
    · rw [pickPrimary, h1]; simp
    · exact List.mem_cons.mpr (Or.inr (by rw [pickPrimary]; exact h1))
  intro l
  induction l with
  | nil => intro b; exact Or.inl rfl
  | cons x rest ih =>
    intro b
    simp only [List.foldl_cons]
    rcases ih (if priorityOf x.type < priorityOf b.type then x else b) with h1 | h1
    · rw [h1]
      by_cases hc : priorityOf x.type < priorityOf b.type
      · rw [if_pos hc]; exact Or.inr (by simp)
      · rw [if_neg hc]; exact Or.inl rfl
    · exact Or.inr (List.mem_cons.mpr (Or.inr h1))

theorem pickPrimary_le (m : HMRMessage) (ms : List HMRMessage) :
    ∀ x ∈ m :: ms, priorityOf (pickPrimary m ms).type ≤ priorityOf x.type := by
  suffices h : ∀ (l : List HMRMessage) (b : HMRMessage),
      priorityOf (l.foldl (fun best x => if priorityOf x.type < priorityOf best.type then x else best) b).type ≤ priorityOf b.type ∧
      ∀ x ∈ l, priorityOf (l.foldl (fun best x => if priorityOf x.type < priorityOf best.type then x else best) b).type ≤ priorityOf x.type by
    intro x hx
    rcases List.mem_cons.mp hx with h1 | h1
    · rw [h1]; exact (h ms m).1
    · exact (h ms m).2 x h1
  intro l
  induction l with
  | nil => intro b; exact ⟨Nat.le_refl _, by simp⟩
  | cons y rest ih =>
    intro b
    simp only [List.foldl_cons]
    by_cases hc : priorityOf y.type < priorityOf b.type
    · rw [if_pos hc]
      have hy := ih y
      refine ⟨le_trans hy.1 (Nat.le_of_lt hc), ?_⟩
      intro x hx
      rcases List.mem_cons.mp hx with h1 | h1
      · rw [h1]; exact hy.1
      · exact hy.2 x h1
    · rw [if_neg hc]
      have hbb := ih b
      refine ⟨hbb.1, ?_⟩
      intro x hx
      rcases List.mem_cons.mp hx with h1 | h1
      · rw [h1]; exact le_trans hbb.1 (Nat.le_of_not_lt hc)
      · exact hbb.2 x h1

theorem insertByPriority_ne_nil (x : HMRMessage) (S : List HMRMessage) :
    insertByPriority x S ≠ [] := by
  cases S with
  | nil => simp [insertByPriority]
  | cons y ys =>
    simp only [insertByPriority]
    by_cases h : priorityOf y.type < priorityOf x.type
    · simp [h]
    · simp [h]

theorem insertByPriority_headD (x d : HMRMessage) (S : List HMRMessage) :
    (insertByPriority x S).headD d =
      match S with
      | [] => x
      | y :: _ => if priorityOf y.type < priorityOf x.type then y else x := by
  cases S with
  | nil => rfl
  | cons y ys =>
    simp only [insertByPriority]
    by_cases h : priorityOf y.type < priorityOf x.type
    · simp [h]
    · simp [h]

theorem sortByPriority_headD_pick (ms : List HMRMessage) :
    ∀ (m d : HMRMessage),
      (insertByPriority m (sortByPriority ms)).headD d = pickPrimary m ms := by
  induction ms with
  | nil => intro m d; rfl
  | cons x rest ih =>
    intro m d
    have hpp : pickPrimary m (x :: rest) =
        pickPrimary (if priorityOf x.type < priorityOf m.type then x else m) rest := by
      simp [pickPrimary]
    have hsort : sortByPriority (x :: rest) =
        insertByPriority x (sortByPriority rest) := rfl
    rw [hpp, ← ih (if priorityOf x.type < priorityOf m.type then x else m) d, hsort]
    cases hS : sortByPriority rest with
    | nil =>
      by_cases h1 : priorityOf x.type < priorityOf m.type <;>
        simp [insertByPriority, h1]
    | cons z zs =>
      cases hinner : insertByPriority x (z :: zs) with
      | nil => exact absurd hinner (insertByPriority_ne_nil x (z :: zs))
      | cons a t =>
        have ha : a = if priorityOf z.type < priorityOf x.type then z else x := by
          have h := insertByPriority_headD x d (z :: zs)
          rw [hinner] at h
          simpa using h
        rw [insertByPriority_headD m d (a :: t),
          insertByPriority_headD
            (if priorityOf x.type < priorityOf m.type then x else m) d (z :: zs), ha]
        by_cases h1 : priorityOf x.type < priorityOf m.type <;>
          by_cases h2 : priorityOf z.type < priorityOf x.type
        · have h3 : priorityOf z.type < priorityOf m.type := by omega
          simp [h1, h2, h3]
        · simp [h1, h2]
        · simp [h1, h2]
        · have h3 : ¬ priorityOf z.type < priorityOf m.type := by omega
          simp [h1, h2, h3]

theorem insertByPriority_perm (x : HMRMessage) (S : List HMRMessage) :
    (insertByPriority x S).Perm (x :: S) := by
  induction S with
  | nil => exact List.Perm.refl [x]
  | cons y ys ih =>
    simp only [insertByPriority]
    by_cases h : priorityOf y.type < priorityOf x.type
    · rw [if_pos h]
      exact (List.Perm.cons y ih).trans (List.Perm.swap x y ys)
    · rw [if_neg h]

theorem sortByPriority_perm (l : List HMRMessage) : (sortByPriority l).Perm l := by
  induction l with
  | nil => exact List.Perm.refl []
  | cons x rest ih =>
    exact (insertByPriority_perm x (sortByPriority rest)).trans (List.Perm.cons x ih)

theorem mem_pathsUnion_aux (l : List HMRMessage) :
    ∀ (acc : List String) (p : String),
      p ∈ l.foldl
        (fun acc msg => match msg.path with
          | some q => if q = "" then acc else setAdd acc q
          | none => acc) acc ↔
      p ∈ acc ∨ ∃ msg, msg ∈ l ∧ msg.path = some p ∧ p ≠ "" := by
  induction l with
  | nil => intro acc p; simp
  | cons msg rest ih =>
    intro acc p
    rw [List.foldl_cons, ih]
    constructor
    · rintro (h | ⟨x, hx, hxp, hpne⟩)
      · cases hmp : msg.path with
        | none =>
          rw [hmp] at h
          exact Or.inl h
        | some q =>
          rw [hmp] at h
          have h2 : p ∈ (if q = "" then acc else setAdd acc q) := h
          by_cases hq : q = ""
          · rw [if_pos hq] at h2
            exact Or.inl h2
          · rw [if_neg hq] at h2
            rcases mem_setAdd.mp h2 with h3 | h3
            · exact Or.inl h3
            · exact Or.inr ⟨msg, List.mem_cons_self msg rest,
                by rw [hmp, h3], by rw [h3]; exact hq⟩
      · exact Or.inr ⟨x, List.mem_cons_of_mem msg hx, hxp, hpne⟩
    · rintro (h | ⟨x, hx, hxp, hpne⟩)
      · left
        cases hmp : msg.path with
        | none => exact h
        | some q =>
          show p ∈ (if q = "" then acc else setAdd acc q)
          by_cases hq : q = ""
          · rw [if_pos hq]; exact h
          · rw [if_neg hq]; exact mem_setAdd.mpr (Or.inl h)
      · rcases List.mem_cons.mp hx with hxm | hxr
        · left
          subst hxm
          rw [hxp]
          show p ∈ (if p = "" then acc else setAdd acc p)
          rw [if_neg hpne]
          exact mem_setAdd.mpr (Or.inr rfl)
        · exact Or.inr ⟨x, hxr, hxp, hpne⟩

theorem mem_routesUnion_aux (l : List HMRMessage) :
    ∀ (acc : List String) (r : String),
      r ∈ l.foldl
        (fun acc msg => match msg.route with
          | some q => if q = "" then acc else setAdd acc q
          | none => acc) acc ↔
      r ∈ acc ∨ ∃ msg, msg ∈ l ∧ msg.route = some r ∧ r ≠ "" := by
  induction l with
  | nil => intro acc r; simp
  | cons msg rest ih =>
    intro acc r
    rw [List.foldl_cons, ih]
    constructor
    · rintro (h | ⟨x, hx, hxr, hrne⟩)
      · cases hmr : msg.route with
        | none =>
          rw [hmr] at h
          exact Or.inl h
        | some q =>
          rw [hmr] at h
          have h2 : r ∈ (if q = "" then acc else setAdd acc q) := h
          by_cases hq : q = ""
          · rw [if_pos hq] at h2
            exact Or.inl h2
          · rw [if_neg hq] at h2
            rcases mem_setAdd.mp h2 with h3 | h3
            · exact Or.inl h3
            · exact Or.inr ⟨msg, List.mem_cons_self msg rest,
                by rw [hmr, h3], by rw [h3]; exact hq⟩
      · exact Or.inr ⟨x, List.mem_cons_of_mem msg hx, hxr, hrne⟩
    · rintro (h | ⟨x, hx, hxr, hrne⟩)
      · left
        cases hmr : msg.route with
        | none => exact h
        | some q =>
          show r ∈ (if q = "" then acc else setAdd acc q)
          by_cases hq : q = ""
          · rw [if_pos hq]; exact h
          · rw [if_neg hq]; exact mem_setAdd.mpr (Or.inl h)
      · rcases List.mem_cons.mp hx with hxm | hxr2
        · left
          subst hxm
          rw [hxr]
          show r ∈ (if r = "" then acc else setAdd acc r)
          rw [if_neg hrne]
          exact mem_setAdd.mpr (Or.inr rfl)
        · exact Or.inr ⟨x, hxr2, hxr, hrne⟩

theorem mem_filesUnion_aux (l : List HMRMessage) :
    ∀ (acc : List HMRFile) (fl : HMRFile),
      fl ∈ l.foldl (fun acc msg => acc ++ msg.files.getD []) acc ↔
      fl ∈ acc ∨ ∃ msg, msg ∈ l ∧ fl ∈ msg.files.getD [] := by
  induction l with
  | nil => intro acc fl; simp
  | cons msg rest ih =>
    intro acc fl
    rw [List.foldl_cons, ih]
    constructor
    · rintro (h | ⟨x, hx, hxf⟩)
      · rcases List.mem_append.mp h with h1 | h1
        · exact Or.inl h1
        · exact Or.inr ⟨msg, List.mem_cons_self msg rest, h1⟩
      · exact Or.inr ⟨x, List.mem_cons_of_mem msg hx, hxf⟩
    · rintro (h | ⟨x, hx, hxf⟩)
      · exact Or.inl (List.mem_append.mpr (Or.inl h))
      · rcases List.mem_cons.mp hx with hxm | hxr
        · subst hxm
          exact Or.inl (List.mem_append.mpr (Or.inr hxf))
        · exact Or.inr ⟨x, hxr, hxf⟩

theorem mem_pathsUnion (l : List HMRMessage) (p : String) :
    p ∈ pathsUnion l ↔ ∃ msg, msg ∈ l ∧ msg.path = some p ∧ p ≠ "" := by
  simpa [pathsUnion] using mem_pathsUnion_aux l [] p

theorem mem_routesUnion (l : List HMRMessage) (r : String) :
    r ∈ routesUnion l ↔ ∃ msg, msg ∈ l ∧ msg.route = some r ∧ r ≠ "" := by
  simpa [routesUnion] using mem_routesUnion_aux l [] r

theorem mem_filesUnion (l : List HMRMessage) (fl : HMRFile) :
    fl ∈ filesUnion l ↔ ∃ msg, msg ∈ l ∧ fl ∈ msg.files.getD [] := by
  simpa [filesUnion] using mem_filesUnion_aux l [] fl

theorem pathsUnion_mem_perm {l1 l2 : List HMRMessage} (hp : l1.Perm l2) (p : String) :
    p ∈ pathsUnion l1 ↔ p ∈ pathsUnion l2 := by
  rw [mem_pathsUnion, mem_pathsUnion]
  constructor
  · rintro ⟨msg, hm, h⟩; exact ⟨msg, hp.mem_iff.mp hm, h⟩
  · rintro ⟨msg, hm, h⟩; exact ⟨msg, hp.mem_iff.mpr hm, h⟩

theorem routesUnion_mem_perm {l1 l2 : List HMRMessage} (hp : l1.Perm l2) (r : String) :
    r ∈ routesUnion l1 ↔ r ∈ routesUnion l2 := by
  rw [mem_routesUnion, mem_routesUnion]
  constructor
  · rintro ⟨msg, hm, h⟩; exact ⟨msg, hp.mem_iff.mp hm, h⟩
  · rintro ⟨msg, hm, h⟩; exact ⟨msg, hp.mem_iff.mpr hm, h⟩

theorem filesUnion_mem_perm {l1 l2 : List HMRMessage} (hp : l1.Perm l2) (fl : HMRFile) :
    fl ∈ filesUnion l1 ↔ fl ∈ filesUnion l2 := by
  rw [mem_filesUnion, mem_filesUnion]
  constructor
  · rintro ⟨msg, hm, h⟩; exact ⟨msg, hp.mem_iff.mp hm, h⟩
  · rintro ⟨msg, hm, h⟩; exact ⟨msg, hp.mem_iff.mpr hm, h⟩

/-- C5.  `mergeUpdates` stably sorts the batch in place by the priority table
reload(0) < error(1) < css-update(2) < component-update(3) < layout-update(4)
< module-update(5) < update(6) and builds the unions over the sorted array.
Merging a non-empty batch yields a message whose `type` is the type of the
first-arrived lowest-priority-number message (the sorted head); the
concatenation of the sorted batch's `files` arrays — element-wise the union
of all messages' files — is attached when non-empty; and the unions of the
batch's truthy `path`s and `route`s (set-wise equal to the unions over the
arrival-ordered batch) are attached through their first element — the first
one seen by the loop over the sorted array — as the scalar representative. -/
theorem mergeUpdates_spec (m : HMRMessage) (ms : List HMRMessage) :
    ∃ merged, mergeUpdates (m :: ms) = some merged ∧
      merged.type = (pickPrimary m ms).type ∧
      pickPrimary m ms ∈ m :: ms ∧
      (∀ x ∈ m :: ms, priorityOf (pickPrimary m ms).type ≤ priorityOf x.type) ∧
      (pathsUnion (sortByPriority (m :: ms)) ≠ [] →
        merged.path = (pathsUnion (sortByPriority (m :: ms))).head?) ∧
      (filesUnion (sortByPriority (m :: ms)) ≠ [] →
        merged.files = some (filesUnion (sortByPriority (m :: ms)))) ∧
      (routesUnion (sortByPriority (m :: ms)) ≠ [] →
        merged.route = (routesUnion (sortByPriority (m :: ms))).head?) ∧
      (∀ p, p ∈ pathsUnion (sortByPriority (m :: ms)) ↔ p ∈ pathsUnion (m :: ms)) ∧
      (∀ fl, fl ∈ filesUnion (sortByPriority (m :: ms)) ↔ fl ∈ filesUnion (m :: ms)) ∧
      (∀ r, r ∈ routesUnion (sortByPriority (m :: ms)) ↔ r ∈ routesUnion (m :: ms)) := by
  cases ms with
  | nil =>
    have hsort : sortByPriority [m] = [m] := rfl
    rw [hsort]
    refine ⟨m, rfl, rfl, by simp [pickPrimary], ?_, ?_, ?_, ?_,
      fun p => Iff.rfl, fun fl => Iff.rfl, fun r => Iff.rfl⟩
    · intro x hx
      have hxm : x = m := by simpa using hx
      rw [hxm]
      exact Nat.le_refl _
    · intro hne
      cases hp : m.path with
      | none => exact absurd (by simp [pathsUnion, hp]) hne
      | some p =>
        by_cases hpe : p = ""
        · exact absurd (by simp [pathsUnion, hp, hpe]) hne
        · simp [pathsUnion, hp, hpe, setAdd]
    · intro hne
      cases hf : m.files with
      | none => exact absurd (by simp [filesUnion, hf]) hne
      | some fs =>
        have h2 : filesUnion [m] = fs := by simp [filesUnion, hf]
        simp [h2, hf]
    · intro hne
      cases hr : m.route with
      | none => exact absurd (by simp [routesUnion, hr]) hne
      | some r =>
        by_cases hre : r = ""
        · exact absurd (by simp [routesUnion, hr, hre]) hne
        · simp [routesUnion, hr, hre, setAdd]
  | cons m2 rest =>
    cases hs : sortByPriority (m :: m2 :: rest) with
    | nil => exact absurd hs (insertByPriority_ne_nil m (sortByPriority (m2 :: rest)))
    | cons primary srest =>
      have hprim : primary = pickPrimary m (m2 :: rest) := by
        have h := sortByPriority_headD_pick (m2 :: rest) m m
        have hs2 : insertByPriority m (sortByPriority (m2 :: rest)) =
            primary :: srest := hs
        rw [hs2] at h
        simpa using h
      have hperm : (primary :: srest).Perm (m :: m2 :: rest) := by
        rw [← hs]
        exact sortByPriority_perm (m :: m2 :: rest)
      have h0 : mergeUpdates (m :: m2 :: rest) =
          match sortByPriority (m :: m2 :: rest) with
          | [] => none
          | primary2 :: sortedRest =>
            some { primary2 with
              path := match (pathsUnion (primary2 :: sortedRest)).head? with
                | some p => some p
                | none => primary2.path,
              files := if filesUnion (primary2 :: sortedRest) ≠ [] then
                  some (filesUnion (primary2 :: sortedRest))
                else primary2.files,
              route := match (routesUnion (primary2 :: sortedRest)).head? with
                | some r => some r
                | none => primary2.route } := rfl
      have hmerge : mergeUpdates (m :: m2 :: rest) =
          some { primary with
            path := match (pathsUnion (primary :: srest)).head? with
              | some p => some p
              | none => primary.path,
            files := if filesUnion (primary :: srest) ≠ [] then
                some (filesUnion (primary :: srest))
              else primary.files,
            route := match (routesUnion (primary :: srest)).head? with
              | some r => some r
              | none => primary.route } := by
        rw [h0, hs]
      refine ⟨_, hmerge, ?_, pickPrimary_mem m (m2 :: rest),
        pickPrimary_le m (m2 :: rest), ?_, ?_, ?_,
        fun p => pathsUnion_mem_perm hperm p,
        fun fl => filesUnion_mem_perm hperm fl,
        fun r => routesUnion_mem_perm hperm r⟩
      · show primary.type = (pickPrimary m (m2 :: rest)).type
        rw [hprim]
      · intro hne
        cases hh : (pathsUnion (primary :: srest)).head? with
        | none => exact absurd (List.head?_eq_none_iff.mp hh) hne
        | some p => simp [hh]
      · intro hne
        simp [hne]
      · intro hne
        cases hh : (routesUnion (primary :: srest)).head? with
        | none => exact absurd (List.head?_eq_none_iff.mp hh) hne
        | some r => simp [hh]

/-- Witness for C5: the claimed `{css-update, module-update}` instance, with
the module update arriving first — the stable sort puts the css update at the
head, the merged message has type `css-update`, the sorted path union lists
the css path first, and that css path (not the first-arrived module path) is
the attached scalar representative. -/
theorem mergeUpdates_spec_witness :
    sortByPriority [modMsgW, cssMsgW] = [cssMsgW, modMsgW] ∧
    pathsUnion (sortByPriority [modMsgW, cssMsgW]) = ["/styles/a.css", "/src/b.ts"] ∧
    pathsUnion [modMsgW, cssMsgW] = ["/src/b.ts", "/styles/a.css"] ∧
    ∃ merged, mergeUpdates [modMsgW, cssMsgW] = some merged ∧
      merged.type = "css-update" ∧ merged.path = some "/styles/a.css" := by
  obtain ⟨merged, h1, h2, _, _, h5, _, _, _, _, _⟩ := mergeUpdates_spec modMsgW [cssMsgW]
  refine ⟨by decide, by decide, by decide, merged, h1, ?_, ?_⟩
  · rw [h2]; decide
  · have h6 := h5 (by decide)
    rw [h6]; decide

theorem segPairsOk_refl (rs : List (List Char)) : segPairsOk rs rs = true := by
  induction rs with
  | nil => rfl
  | cons a rest ih =>
    simp only [segPairsOk, List.zip_cons_cons, List.all_cons, Bool.and_eq_true]
    constructor
    · by_cases h : (a.head? == some ':' || a == [('*' : Char)]) = true
      · simp [h]
      · simp only [h]
        simp
    · simpa [segPairsOk] using ih

/-- C6 (amended).  The route gate of `handleUpdate` drops an update with a
truthy route exactly when `isCurrentRoute` rejects it; when the current route
comes from the injected render-context URL, `isCurrentRoute` is *exact*
equality of normalized routes, and only the location-path fallback uses
segment-wise matching (a `:param` or `*` segment always matches, literal
segments must be equal, segment counts must be equal).  With current location
route `/user/123` and no render context, route `/user/:id` is accepted and
`/post/1` is rejected. -/
theorem isCurrentRoute_spec :
    (∀ (url pathname route : String),
      isCurrentRoute { renderUrl := some url, pathname := pathname } route =
        (clientNormalizeRoute (stripQueryHash url.data) ==
          clientNormalizeRoute route.data)) ∧
    (∀ (pathname route : String),
      (isCurrentRoute { renderUrl := none, pathname := pathname } route = true) ↔
        ((splitSegments (clientNormalizeRoute pathname.data)).length =
          (splitSegments (clientNormalizeRoute route.data)).length ∧
         segPairsOk (splitSegments (clientNormalizeRoute route.data))
           (splitSegments (clientNormalizeRoute pathname.data)) = true)) ∧
    (∀ (env : ClientEnv) (msg : HMRMessage) (r : String), msg.route = some r →
      r ≠ "" → handleUpdateProceeds env msg = isCurrentRoute env r) ∧
    isCurrentRoute { renderUrl := none, pathname := "/user/123" } "/user/:id" = true ∧
    isCurrentRoute { renderUrl := none, pathname := "/user/123" } "/post/1" = false := by
  refine ⟨fun url pathname route => rfl, ?_, ?_, by decide, by decide⟩
  · intro pathname route
    show (if clientNormalizeRoute pathname.data == clientNormalizeRoute route.data
        then true
        else
          if (splitSegments (clientNormalizeRoute pathname.data)).length ≠
              (splitSegments (clientNormalizeRoute route.data)).length
          then false
          else segPairsOk (splitSegments (clientNormalizeRoute route.data))
            (splitSegments (clientNormalizeRoute pathname.data))) = true ↔ _
    by_cases heq : (clientNormalizeRoute pathname.data ==
        clientNormalizeRoute route.data) = true
    · rw [if_pos heq]
      have heq2 : clientNormalizeRoute pathname.data =
          clientNormalizeRoute route.data := eq_of_beq heq
      rw [heq2]
      simp [segPairsOk_refl]
    · rw [if_neg heq]
      by_cases hlen : (splitSegments (clientNormalizeRoute pathname.data)).length ≠
          (splitSegments (clientNormalizeRoute route.data)).length
      · rw [if_pos hlen]
        simp [hlen]
      · rw [if_neg hlen]
        simp only [ne_eq, not_not] at hlen
        simp [hlen]
  · intro env msg r hr hne
    unfold handleUpdateProceeds
    rw [hr]
    simp only [if_neg hne]

/-- Counterexample to C6 as stated: with the render-context URL injected for
the page `/user/123`, a message routed `/user/:id` is *dropped* (the code
compares exactly, not segment-wise), although the claim says it is applied —
the same comparison succeeds only in the location-path fallback. -/
theorem isCurrentRoute_counterexample :
    isCurrentRoute { renderUrl := some "/user/123", pathname := "/user/123" }
      "/user/:id" = false ∧
    handleUpdateProceeds { renderUrl := some "/user/123", pathname := "/user/123" }
      { type := "update", route := some "/user/:id" } = false ∧
    isCurrentRoute { renderUrl := none, pathname := "/user/123" } "/user/:id" = true := by
  decide

/-- Witness for C6 (amended) at the `/user/123` instance. -/
theorem isCurrentRoute_spec_witness :
    handleUpdateProceeds { renderUrl := none, pathname := "/user/123" }
      { type := "update", route := some "/user/:id" } =
      isCurrentRoute { renderUrl := none, pathname := "/user/123" } "/user/:id" ∧
    isCurrentRoute { renderUrl := none, pathname := "/user/123" } "/user/:id" = true := by
  have h := isCurrentRoute_spec
  exact ⟨h.2.2.1 { renderUrl := none, pathname := "/user/123" }
    { type := "update", route := some "/user/:id" } "/user/:id" rfl (by decide),
    h.2.2.2.1⟩

theorem reconnectCascade_char : ∀ (n a : Nat), a ≤ 10 →
    reconnectCascade n { reconnectAttempts := a, reconnectDelay := 1000 } =
      (List.range (min n (10 - a))).map
        (fun k => min (1000 * (3 / 2 : ℚ) ^ (a + k)) 30000) := by
  intro n
  induction n with
  | zero => intro a _; simp [reconnectCascade]
  | succ n ih =>
    intro a ha
    by_cases hc : a < 10
    · have hsched : scheduleReconnect { reconnectAttempts := a, reconnectDelay := 1000 } =
          ({ reconnectAttempts := a + 1, reconnectDelay := 1000 },
           some (min ((1000 : ℚ) * (3 / 2 : ℚ) ^ a) 30000)) := by
        unfold scheduleReconnect
        rw [if_pos (by simpa [maxReconnectAttempts] using hc)]
        simp [reconnectDelayMultiplier, maxReconnectDelay]
      rw [reconnectCascade, hsched]
      simp only
      rw [ih (a + 1) (by omega)]
      have hmin1 : min (n + 1) (10 - a) = min n (10 - (a + 1)) + 1 := by omega
      rw [hmin1, List.range_succ_eq_map]
      simp only [List.map_cons, List.map_map]
      congr 1
      apply List.map_congr_left
      intro k _
      simp only [Function.comp_apply]
      rw [show a + 1 + k = a + (k + 1) from by omega]
    · have ha10 : a = 10 := by omega
      subst ha10
      have hsched : scheduleReconnect { reconnectAttempts := 10, reconnectDelay := 1000 } =
          ({ reconnectAttempts := 0, reconnectDelay := 1000 }, none) := by
        unfold scheduleReconnect
        rw [if_neg (by simp [maxReconnectAttempts])]
      rw [reconnectCascade, hsched]
      simp

/-- C7.  Starting from the fresh (or just-reset) state, the n-th scheduled
reconnection delay is `min(1000·1.5^(n-1), 30000)` ms for every 1 ≤ n ≤ 10
(so attempts 1–4 wait 1000, 1500, 2250, 3375 ms), at most ten attempts are
ever scheduled in a failure cascade (after the tenth, `scheduleReconnect`
schedules nothing, so no further connection events occur until a manual
connect), and the `onopen` handler resets the counter to 0 and the delay to
1000 ms. -/
theorem reconnect_backoff_spec :
    (∀ n : Nat, reconnectCascade n initReconnect =
      (List.range (min n 10)).map (fun k => min (1000 * (3 / 2 : ℚ) ^ k) 30000)) ∧
    (∀ n : Nat, (reconnectCascade n initReconnect).length ≤ 10) ∧
    (∀ n : Nat, 1 ≤ n → n ≤ 10 → ∀ N : Nat, n ≤ N →
      (reconnectCascade N initReconnect)[n - 1]? =
        some (min (1000 * (3 / 2 : ℚ) ^ (n - 1)) 30000)) ∧
    reconnectCascade 4 initReconnect = [1000, 1500, 2250, 3375] ∧
    (∀ s : ReconnectState, (onOpenReset s).reconnectAttempts = 0 ∧
      (onOpenReset s).reconnectDelay = 1000) := by
  have hchar : ∀ n : Nat, reconnectCascade n initReconnect =
      (List.range (min n 10)).map (fun k => min (1000 * (3 / 2 : ℚ) ^ k) 30000) := by
    intro n
    have h := reconnectCascade_char n 0 (by omega)
    simpa [initReconnect] using h
  refine ⟨hchar, ?_, ?_, ?_, fun s => ⟨rfl, rfl⟩⟩
  · intro n
    rw [hchar n]
    simp [Nat.min_le_right]
  · intro n h1 h10 N hN
    rw [hchar N]
    have hlt : n - 1 < min N 10 := by omega
    rw [List.getElem?_map]
    rw [List.getElem?_range hlt]
    rfl
  · rw [hchar 4]
    norm_num [List.range_succ, min_def]

/-- Witness for C7: the fourth scheduled delay in a ten-failure cascade is
3375 ms and a long cascade never schedules more than ten attempts. -/
theorem reconnect_backoff_spec_witness :
    (reconnectCascade 10 initReconnect)[3]? = some 3375 ∧
    (reconnectCascade 20 initReconnect).length ≤ 10 := by
  have h := reconnect_backoff_spec
  constructor
  · have h3 := h.2.2.1 4 (by omega) (by omega) 10 (by omega)
    rw [show (4 : Nat) - 1 = 3 from rfl] at h3
    rw [h3]
    norm_num [min_def]
  · exact h.2.1 20

theorem runCycle_eq (mon : PerfMonitor) (c : PerfCycle) :
    runCycle mon c =
      { metrics := if maxMetrics < (mon.metrics ++ [cycleSample c]).length
          then (mon.metrics ++ [cycleSample c]).drop 1
          else mon.metrics ++ [cycleSample c],
        currentUpdate := none } := by
  unfold runCycle endUpdate startUpdate cycleSample
  simp only

theorem lastN_length_le (l : List PerfMetric) : (lastN 100 l).length ≤ 100 := by
  simp only [lastN, List.length_drop]
  omega

theorem pushShift_eq (A : List PerfMetric) (s : PerfMetric) (hA : A.length ≤ 100) :
    (if maxMetrics < (A ++ [s]).length then (A ++ [s]).drop 1 else A ++ [s]) =
      lastN 100 (A ++ [s]) := by
  simp only [maxMetrics, lastN, List.length_append, List.length_cons, List.length_nil]
  by_cases h : 100 < A.length + 1
  · rw [if_pos (by omega)]
    congr 1
    omega
  · rw [if_neg (by omega)]
    have h0 : A.length + 0 + 1 - 100 = 0 := by omega
    rw [h0, List.drop_zero]

theorem lastN_append_one (X : List PerfMetric) (s : PerfMetric) :
    lastN 100 (lastN 100 X ++ [s]) = lastN 100 (X ++ [s]) := by
  by_cases hX : X.length ≤ 100
  · unfold lastN
    have h0 : X.length - 100 = 0 := by omega
    rw [h0, List.drop_zero]
  · unfold lastN
    have hY : (X.drop (X.length - 100)).length = 100 := by
      rw [List.length_drop]
      omega
    have hj : (X.drop (X.length - 100) ++ [s]).length - 100 = 1 := by
      simp only [List.length_append, hY, List.length_cons, List.length_nil]
    have hi : (X ++ [s]).length - 100 = X.length - 100 + 1 := by
      simp only [List.length_append, List.length_cons, List.length_nil]
      omega
    rw [hj, hi]
    rw [List.drop_append_of_le_length (by rw [hY]; omega)]
    rw [List.drop_append_of_le_length (by omega)]
    rw [List.drop_drop]

theorem runCycles_metrics (cs : List PerfCycle) :
    (runCycles cs).metrics = lastN 100 (cs.map cycleSample) := by
  induction cs using List.reverseRecOn with
  | nil => simp [runCycles, freshMonitor, lastN]
  | append_singleton l c ih =>
    have hfold : runCycles (l ++ [c]) = runCycle (runCycles l) c := by
      unfold runCycles
      rw [List.foldl_append]
      rfl
    rw [hfold, runCycle_eq]
    simp only
    rw [ih]
    rw [pushShift_eq _ _ (lastN_length_le _)]
    rw [lastN_append_one]
    simp

theorem perturb_successfulMetrics (l : List PerfMetric) (f : PerfMetric → Option Int) :
    successfulMetrics (l.map (fun mm => if mm.success then mm
      else { mm with duration := f mm })) = successfulMetrics l := by
  induction l with
  | nil => rfl
  | cons mm rest ih =>
    simp only [List.map_cons, successfulMetrics, List.filter_cons] at ih ⊢
    by_cases hs : mm.success
    · rw [if_pos hs, ih]
    · rw [if_neg hs]
      have h2 : mm.success = false := Bool.of_not_eq_true hs
      have h1 : ({ mm with duration := f mm } : PerfMetric).success = false := h2
      simp [h1, h2, ih]

/-- C9.  After any sequence of paired `startUpdate`/`endUpdate` cycles the
recorder's buffer holds the most recent `min(n, 100)` samples — at most 100,
oldest evicted first — and `getStats` is completely insensitive to the
durations of failed samples (every sample feeding the duration statistics
has `success = true`), while failed samples still count in `totalUpdates`
and `failedUpdates`. -/
theorem recorder_spec (cs : List PerfCycle) :
    (runCycles cs).metrics.length ≤ 100 ∧
    (runCycles cs).metrics = (cs.map cycleSample).drop (cs.length - 100) ∧
    (∀ mm ∈ successfulMetrics (runCycles cs).metrics, mm.success = true) ∧
    (∀ (st : PerfMonitor) (f : PerfMetric → Option Int),
      getStats (perturbFailedDurations st f) = getStats st) ∧
    (getStats (runCycles cs)).totalUpdates = (runCycles cs).metrics.length ∧
    (getStats (runCycles cs)).failedUpdates =
      (runCycles cs).metrics.length - (successfulMetrics (runCycles cs).metrics).length := by
  have hmet : (runCycles cs).metrics = (cs.map cycleSample).drop (cs.length - 100) := by
    rw [runCycles_metrics]
    simp [lastN]
  refine ⟨?_, hmet, ?_, ?_, rfl, rfl⟩
  · rw [hmet]
    simp only [List.length_drop, List.length_map]
    omega
  · intro mm hmm
    have h := List.of_mem_filter hmm
    exact (Bool.and_eq_true _ _).mp h |>.1
  · intro st f
    unfold perturbFailedDurations getStats
    simp only
    rw [perturb_successfulMetrics]
    simp

set_option maxRecDepth 8000 in
/-- Witness for C9: after 150 concrete cycles the buffer holds exactly 100
samples, and the duration statistics of the resulting state ignore failed
samples' durations. -/
theorem recorder_spec_witness :
    (runCycles witnessCyclesC9).metrics.length ≤ 100 ∧
    (runCycles witnessCyclesC9).metrics.length = 100 := by
  have h := recorder_spec witnessCyclesC9
  refine ⟨h.1, ?_⟩
  rw [h.2.1]
  have hlen : witnessCyclesC9.length = 150 := by decide
  rw [List.length_drop, List.length_map, hlen]
